import Mathlib

/-!
Verification development for the Gyroad repository (src/game.js, first
document, the Web/Canvas variant with the bot; src/main.js, the plain
variant cited for claim C6).

The embedding translates the relevant JavaScript functions into Lean:
pure piece/offset computations become Lean functions on Int coordinates,
the mutable Set-based resolver becomes a fuel-indexed state-passing
recursion over Finsets, and the game state updates become pure
transformers on a GameState record.  JS `Set` objects holding "x,y" keys
are modelled by `Finset Pos` (the key string is in bijection with the
position).
-/

set_option maxHeartbeats 1000000

namespace Gyroad

/-- Board constants from game.js: BOARD_WIDTH = 7, BOARD_HEIGHT = 8. -/
def boardWidth : Int := 7

def boardHeight : Int := 8

/-- A board position.  JS stores x, y as numbers on each piece. -/
structure Pos where
  x : Int
  y : Int
deriving DecidableEq, Repr

/-- The seven base piece types of game.js.  The JS `type` strings carry an
optional trailing "e" (enemy sprite variant) which every rules function
strips with type.replace(/e$/, "") before dispatch, so the base type is
the whole movement-relevant content. -/
inductive PieceType
  | PR
  | PL
  | PX
  | DP
  | DT
  | DN
  | C
deriving DecidableEq, Repr

instance : Fintype PieceType :=
  ⟨⟨[PieceType.PR, PieceType.PL, PieceType.PX, PieceType.DP, PieceType.DT,
     PieceType.DN, PieceType.C], by decide⟩, by intro t; cases t <;> decide⟩

/-- A piece, keeping the rules-relevant fields of the JS Piece class:
id, x/y, type, player, rotation, movedLastTurn, rotatedThisTurn.
Animation and drawing fields are presentation-only and omitted. -/
structure Piece where
  id : Nat
  pos : Pos
  ptype : PieceType
  player : Nat
  rotation : Int
  movedLastTurn : Bool
  rotatedThisTurn : Bool
deriving DecidableEq, Repr

/-- The board is the authoritative piece collection (JS `pieces`); the JS
grid `board[y][x]` always mirrors it (rebuildBoard), so grid lookup is
modelled by searching the collection by position. -/
abbrev Board := List Piece

/-- Grid lookup board[y][x], via the grid/collection consistency invariant. -/
def pieceAt (b : Board) (pos : Pos) : Option Piece :=
  b.find? (fun q => q.pos = pos)

/-- game.js isValidPosition: x >= 0 && x < BOARD_WIDTH && y >= 0 && y < BOARD_HEIGHT. -/
def isValidPosition (x y : Int) : Bool :=
  0 ≤ x && x < boardWidth && 0 ≤ y && y < boardHeight

/-- game.js rotateDir.  The JS function normalises the angle with
((angle % 360) + 360) % 360 and applies the exact lookup for 0/90/180/270.
Its trigonometric fallback for other angles is unreachable in this
development: every theorem below instantiates the angle at a multiple of
90 degrees, for which the normalised value hits one of the four lookup
branches, so the fallback branch is modelled as the identity. -/
def rotateDir (dx dy : Int) (angle : Int) : Pos :=
  let a := ((angle % 360) + 360) % 360
  if a = 0 then ⟨dx, dy⟩
  else if a = 90 then ⟨-dy, dx⟩
  else if a = 180 then ⟨-dx, -dy⟩
  else if a = 270 then ⟨dy, -dx⟩
  else ⟨dx, dy⟩

/-- The per-type unrotated direction list of game.js getAvailableSquares
(lines 206-240): the forward-relative frame vectors up/down/left/right are
mirrored between the two players, and each type's list is built from them
exactly as in the source. -/
def pieceDirs (t : PieceType) (player : Nat) : List Pos :=
  let up : Pos := if player = 1 then ⟨0, -1⟩ else ⟨0, 1⟩
  let down : Pos := if player = 1 then ⟨0, 1⟩ else ⟨0, -1⟩
  let left : Pos := if player = 1 then ⟨-1, 0⟩ else ⟨1, 0⟩
  let right : Pos := if player = 1 then ⟨1, 0⟩ else ⟨-1, 0⟩
  match t with
  | .PR => [left, ⟨right.x, right.y + down.y⟩]
  | .PL => [right, ⟨left.x, left.y + down.y⟩]
  | .PX => [⟨right.x + up.x, right.y + up.y⟩, ⟨right.x + down.x, right.y + down.y⟩,
            ⟨left.x + up.x, left.y + up.y⟩, ⟨left.x + down.x, left.y + down.y⟩]
  | .DP => [up, ⟨up.x * 2, up.y * 2⟩, left, right]
  | .DT => [up, ⟨up.x + left.x, up.y + left.y⟩, ⟨up.x + right.x, up.y + right.y⟩, down]
  | .DN => [up, down, ⟨left.x * 2, left.y * 2⟩, ⟨right.x * 2, right.y * 2⟩]
  | .C => [up, ⟨down.x + left.x, down.y + left.y⟩, ⟨down.x + right.x, down.y + right.y⟩]

/-- The rotated offset list of game.js getAvailableSquares before the
bounds filter: rotation is normalised with ((rotation % 360) + 360) % 360,
the applied angle is (-rotation + 360) % 360, and each direction passes
through rotateDir.  The JS per-piece relativeDirsCache memoises exactly
this value per angle and is semantically transparent. -/
def adjustedDirs (t : PieceType) (player : Nat) (rotation : Int) : List Pos :=
  let r := ((rotation % 360) + 360) % 360
  let angle := (-r + 360) % 360
  (pieceDirs t player).map (fun d => rotateDir d.x d.y angle)

/-- game.js getAvailableSquares: add each adjusted offset to the piece's
position and keep only in-bounds results. -/
def getAvailableSquares (p : Piece) : List Pos :=
  ((adjustedDirs p.ptype p.player p.rotation).map
    (fun d => (⟨p.pos.x + d.x, p.pos.y + d.y⟩ : Pos))).filter
    (fun q => isValidPosition q.x q.y)

/-- game.js canBeSelected: player match, not moved last turn, not rotated
this turn. -/
def canBeSelected (p : Piece) (currPlayer : Nat) : Bool :=
  p.player == currPlayer && !p.movedLastTurn && !p.rotatedThisTurn

end Gyroad

namespace Mainjs

/-- The per-type unrotated direction list of src/main.js getAvailableSquares
(lines 554-605).  It differs from game.js in the PR and PL cases: main.js
computes the second offset with up (forward) where game.js uses down
(backward). -/
def pieceDirs (t : Gyroad.PieceType) (player : Nat) : List Gyroad.Pos :=
  let up : Gyroad.Pos := if player = 1 then ⟨0, -1⟩ else ⟨0, 1⟩
  let down : Gyroad.Pos := if player = 1 then ⟨0, 1⟩ else ⟨0, -1⟩
  let left : Gyroad.Pos := if player = 1 then ⟨-1, 0⟩ else ⟨1, 0⟩
  let right : Gyroad.Pos := if player = 1 then ⟨1, 0⟩ else ⟨-1, 0⟩
  match t with
  | .PR => [left, ⟨right.x, right.y + up.y⟩]
  | .PL => [right, ⟨left.x, left.y + up.y⟩]
  | .PX => [⟨right.x + up.x, right.y + up.y⟩, ⟨right.x + down.x, right.y + down.y⟩,
            ⟨left.x + up.x, left.y + up.y⟩, ⟨left.x + down.x, left.y + down.y⟩]
  | .DP => [up, ⟨up.x * 2, up.y * 2⟩, left, right]
  | .DT => [up, ⟨up.x + left.x, up.y + left.y⟩, ⟨up.x + right.x, up.y + right.y⟩, down]
  | .DN => [up, down, ⟨left.x * 2, left.y * 2⟩, ⟨right.x * 2, right.y * 2⟩]
  | .C => [up, ⟨down.x + left.x, down.y + left.y⟩, ⟨down.x + right.x, down.y + right.y⟩]

end Mainjs

namespace Gyroad

/-- The pieces found on a piece's valid candidate squares — game.js
getAllAccessibleSquaresForBoard, first loop (lines 309-317): for each
available position that is in bounds and holds a piece, that piece is
collected into piecesOnAvailable. -/
def piecesOnAvailableOf (b : Board) (p : Piece) : List Piece :=
  (getAvailableSquares p).filterMap (fun pos =>
    if isValidPosition pos.x pos.y then pieceAt b pos else none)

/-- The occupied valid candidate squares of a piece: the keys the first
resolver loop adds to accessibleSquares. -/
def occCandidates (b : Board) (p : Piece) : Finset Pos :=
  ((getAvailableSquares p).filter (fun pos =>
    isValidPosition pos.x pos.y && (pieceAt b pos).isSome)).toFinset

/-- The valid candidate squares of a piece: what the third resolver loop
iterates over for a linked target. -/
def validCandidates (p : Piece) : Finset Pos :=
  ((getAvailableSquares p).filter (fun pos => isValidPosition pos.x pos.y)).toFinset

/-- Inner iteration of the third resolver loop (game.js lines 335-341):
each valid candidate position of the target that is not yet in
visitedPositions is added to both visitedPositions and accessibleSquares.
State: (accessibleSquares, visitedPositions). -/
def loop3Inner : List Pos → Finset Pos × Finset Pos → Finset Pos × Finset Pos
  | [], st => st
  | pos :: rest, (acc, visPos) =>
    if isValidPosition pos.x pos.y = true ∧ pos ∉ visPos then
      loop3Inner rest (insert pos acc, insert pos visPos)
    else
      loop3Inner rest (acc, visPos)

/-- Third resolver loop (game.js lines 331-343): for every friendly target
other than the origin piece, walk its available squares with loop3Inner. -/
def loop3 (originPiece piece : Piece) :
    List Piece → Finset Pos × Finset Pos → Finset Pos × Finset Pos
  | [], st => st
  | target :: rest, st =>
    if target.player = piece.player ∧ target.pos ≠ originPiece.pos then
      loop3 originPiece piece rest (loop3Inner (getAvailableSquares target) st)
    else
      loop3 originPiece piece rest st

/-- Second resolver loop (game.js lines 319-329), parameterised by the
recursive call (the next-lower fuel instance of the resolver).  A friendly
unvisited target that is not the origin is recursed into and its
accessibleSquares unioned in; an enemy target's position is added.
State: (accessibleSquares, visitedPositions, visitedPieces). -/
def loop2
    (recurse : Piece → Finset Pos → Finset Pos → Option (Finset Pos × Finset Pos × Finset Pos))
    (originPiece piece : Piece) :
    List Piece → Finset Pos × Finset Pos × Finset Pos →
    Option (Finset Pos × Finset Pos × Finset Pos)
  | [], st => some st
  | target :: rest, (acc, visPos, visPieces) =>
    if target.player = piece.player then
      if target.pos ∉ visPieces then
        if target.pos ≠ originPiece.pos then
          match recurse target visPos visPieces with
          | none => none
          | some (childAcc, visPos', visPieces') =>
            loop2 recurse originPiece piece rest (acc ∪ childAcc, visPos', visPieces')
        else loop2 recurse originPiece piece rest (acc, visPos, visPieces)
      else loop2 recurse originPiece piece rest (acc, visPos, visPieces)
    else
      loop2 recurse originPiece piece rest (insert target.pos acc, visPos, visPieces)

/-- game.js getAllAccessibleSquaresForBoard (lines 302-346), generalised by
a reorder function applied to piecesOnAvailable, which models the order in
which the pieces found on the frontier piece's candidate squares are
processed (claim C4 quantifies over this order; the source order is
reorder = identity, see resolveFuel).  The shared mutable visitedPositions
and visitedPieces sets are threaded through; the per-call accessibleSquares
set is returned and unioned by the caller, as in the source.  The JS
recursion has no fuel; the fuel argument makes the recursion structural,
and resolveFuel_isSome below proves that piece count + 1 fuel always
suffices, so none is never returned on the runs the theorems consider. -/
def resolveFuelO (reorder : List Piece → List Piece) :
    Nat → Piece → Piece → Board → Finset Pos → Finset Pos →
    Option (Finset Pos × Finset Pos × Finset Pos)
  | 0, _, _, _, _, _ => none
  | fuel + 1, piece, originPiece, boardRef, visitedPositions, visitedPieces =>
    let visitedPieces1 := insert piece.pos visitedPieces
    let piecesOnAvailable := reorder (piecesOnAvailableOf boardRef piece)
    let acc1 := occCandidates boardRef piece
    match loop2 (fun t vp vpc => resolveFuelO reorder fuel t originPiece boardRef vp vpc)
        originPiece piece piecesOnAvailable (acc1, visitedPositions, visitedPieces1) with
    | none => none
    | some (acc2, visPos2, visPieces2) =>
      let st3 := loop3 originPiece piece piecesOnAvailable (acc2, visPos2)
      some (st3.1, st3.2, visPieces2)

/-- game.js getAllAccessibleSquaresForBoard with the source processing
order (piecesOnAvailable in candidate-square order). -/
def resolveFuel :
    Nat → Piece → Piece → Board → Finset Pos → Finset Pos →
    Option (Finset Pos × Finset Pos × Finset Pos)
  | 0, _, _, _, _, _ => none
  | fuel + 1, piece, originPiece, boardRef, visitedPositions, visitedPieces =>
    let visitedPieces1 := insert piece.pos visitedPieces
    let piecesOnAvailable := piecesOnAvailableOf boardRef piece
    let acc1 := occCandidates boardRef piece
    match loop2 (fun t vp vpc => resolveFuel fuel t originPiece boardRef vp vpc)
        originPiece piece piecesOnAvailable (acc1, visitedPositions, visitedPieces1) with
    | none => none
    | some (acc2, visPos2, visPieces2) =>
      let st3 := loop3 originPiece piece piecesOnAvailable (acc2, visPos2)
      some (st3.1, st3.2, visPieces2)

/-- Entry point with the JS default arguments: fresh visitedPositions and
visitedPieces sets. -/
def getAllAccessibleSquaresForBoard (fuel : Nat) (piece originPiece : Piece)
    (boardRef : Board) : Option (Finset Pos × Finset Pos × Finset Pos) :=
  resolveFuel fuel piece originPiece boardRef ∅ ∅

/-- Well-formedness of a board: every piece is in bounds, positions are
distinct (one piece per grid cell), ids are distinct, players are 1 or 2.
These are the BoardState invariants the game maintains. -/
def WFBoard (b : Board) : Prop :=
  (∀ p ∈ b, isValidPosition p.pos.x p.pos.y = true) ∧
  b.Pairwise (fun p q => p.pos ≠ q.pos) ∧
  b.Pairwise (fun p q => p.id ≠ q.id) ∧
  (∀ p ∈ b, p.player = 1 ∨ p.player = 2)

instance (b : Board) : Decidable (WFBoard b) := by
  unfold WFBoard; infer_instance

/-- One chain hop of the resolver relation: t is a friendly piece standing
on a valid candidate square of u, and t is not on the origin square. -/
def edgeStep (b : Board) (o : Piece) (u t : Piece) : Prop :=
  t ∈ piecesOnAvailableOf b u ∧ t.player = u.player ∧ t.pos ≠ o.pos

/-- The transitive chain relation between pieces. -/
def Chain (b : Board) (o : Piece) (u t : Piece) : Prop :=
  Relation.TransGen (edgeStep b o) u t

/-- A linked piece of the selected piece o: reached from o through a chain
of friendly pieces standing on each other's raw candidate squares, never
through the origin square itself. -/
def Linked (b : Board) (o t : Piece) : Prop :=
  Chain b o o t

/-- The in-bounds positions of a list, as a Finset. -/
def validPosSet (l : List Pos) : Finset Pos :=
  (l.filter (fun pos => isValidPosition pos.x pos.y)).toFinset

/-- The union of the valid candidate squares of the friendly non-origin
targets in a list: the set the third resolver loop ranges over. -/
def loop3Union (originPiece piece : Piece) : List Piece → Finset Pos
  | [] => ∅
  | t :: rest =>
    (if t.player = piece.player ∧ t.pos ≠ originPiece.pos then validCandidates t else ∅) ∪
      loop3Union originPiece piece rest

/-- Postcondition of one resolver call on piece p with incoming
visitedPositions vp and visitedPieces vpc, producing
res = (accessibleSquares, visitedPositions, visitedPieces). -/
structure ResolveOut (b : Board) (o p : Piece) (vp vpc : Finset Pos)
    (res : Finset Pos × Finset Pos × Finset Pos) : Prop where
  vp_mono : vp ⊆ res.2.1
  vpc_mono : vpc ⊆ res.2.2
  self_mem : p.pos ∈ res.2.2
  vpc_sound : ∀ x ∈ res.2.2, x ∈ vpc ∨ x = p.pos ∨ ∃ t, Chain b o p t ∧ x = t.pos
  vp_in_acc : ∀ x ∈ res.2.1, x ∈ vp ∨ x ∈ res.1
  acc_sound : ∀ x ∈ res.1, x ∈ occCandidates b p ∨
      (∃ q, Chain b o p q ∧ x ∈ occCandidates b q) ∨
      (∃ q t, (q = p ∨ Chain b o p q) ∧ edgeStep b o q t ∧ x ∈ validCandidates t)
  complete : ∀ q : Piece, pieceAt b q.pos = some q → q.pos ∈ res.2.2 → q.pos ∉ vpc →
      (∀ t, edgeStep b o q t → t.pos ∈ res.2.2 ∧ validCandidates t ⊆ res.2.1 ∧
        ∀ z ∈ validCandidates t, z ∈ res.1 ∨ z ∈ vp) ∧
      ∀ z ∈ occCandidates b q, z ∈ res.1

/-- Postcondition of the second resolver loop starting from state
(acc, vp, vpc) (with the call piece p already in vpc). -/
structure Loop2Out (b : Board) (o p : Piece) (acc vp vpc : Finset Pos)
    (res : Finset Pos × Finset Pos × Finset Pos) : Prop where
  acc_mono : acc ⊆ res.1
  vp_mono : vp ⊆ res.2.1
  vpc_mono : vpc ⊆ res.2.2
  vpc_sound : ∀ x ∈ res.2.2, x ∈ vpc ∨ ∃ t, Chain b o p t ∧ x = t.pos
  vp_in_acc : ∀ x ∈ res.2.1, x ∈ vp ∨ x ∈ res.1
  acc_sound : ∀ x ∈ res.1, x ∈ acc ∨ x ∈ occCandidates b p ∨
      (∃ q, Chain b o p q ∧ x ∈ occCandidates b q) ∨
      (∃ q t, (q = p ∨ Chain b o p q) ∧ edgeStep b o q t ∧ x ∈ validCandidates t)
  complete : ∀ q : Piece, pieceAt b q.pos = some q → q.pos ∈ res.2.2 → q.pos ∉ vpc →
      (∀ t, edgeStep b o q t → t.pos ∈ res.2.2 ∧ validCandidates t ⊆ res.2.1 ∧
        ∀ z ∈ validCandidates t, z ∈ res.1 ∨ z ∈ vp) ∧
      ∀ z ∈ occCandidates b q, z ∈ res.1

/-- The positions occupied on a board. -/
def boardPositions (b : Board) : Finset Pos :=
  (b.map Piece.pos).toFinset

/-- One expansion round of findMovementPathForBoard's BFS (game.js lines
372-381): for each piece of the consider set whose available squares
contain the current position (JS pAvail.some over coordinates, i.e. list
membership) and whose own square is unvisited, mark it visited and append
(its square, path extended by its square) to the queue. -/
def bfsExpand (pos : Pos) (path : List Pos) :
    List Piece → List (Pos × List Pos) → Finset Pos →
    List (Pos × List Pos) × Finset Pos
  | [], queue, visited => (queue, visited)
  | p :: rest, queue, visited =>
    if pos ∈ getAvailableSquares p ∧ p.pos ∉ visited then
      bfsExpand pos path rest (queue ++ [(p.pos, path ++ [p.pos])]) (insert p.pos visited)
    else
      bfsExpand pos path rest queue visited

/-- The BFS while-loop of findMovementPathForBoard (game.js lines 365-382).
Outer some none models the JS return null (queue exhausted); outer none is
fuel exhaustion, which bfsLoop_measure below rules out for sufficient fuel.
The first dequeued entry is the only one with a length-1 path, so the
consider set is accessibleFirstStep exactly for it, as in the source. -/
def bfsLoop (selected : Piece) (accessiblePieces accessibleFirstStep : List Piece) :
    Nat → List (Pos × List Pos) → Finset Pos → Option (Option (List Pos))
  | _, [], _ => some none
  | 0, _ :: _, _ => none
  | fuel + 1, (pos, path) :: queueRest, visited =>
    if pos = selected.pos then some (some path.reverse)
    else
      let consider := if path.length = 1 then accessibleFirstStep else accessiblePieces
      let st := bfsExpand pos path consider queueRest visited
      bfsLoop selected accessiblePieces accessibleFirstStep fuel st.1 st.2

/-- game.js findMovementPathForBoard (lines 348-384).  accessiblePieces is
the set of friendly pieces standing on visitedPieces squares of the
resolver run (the JS Set is iterated in insertion order; here the
equal set is read off in board-list order, which no theorem depends on);
when the destination is empty the selected piece is excluded from the
first hop. -/
def findMovementPathForBoard (fuel bfsFuel : Nat) (selected : Piece)
    (destination : Pos) (boardRef : Board) : Option (Option (List Pos)) :=
  match getAllAccessibleSquaresForBoard fuel selected selected boardRef with
  | none => none
  | some res =>
    let accessiblePieces := boardRef.filter (fun p =>
      decide (p.pos ∈ res.2.2) && decide (p.player = selected.player))
    let destEmpty := (pieceAt boardRef destination).isNone
    let accessibleFirstStep :=
      if destEmpty then accessiblePieces.filter (fun p => decide (p.pos ≠ selected.pos))
      else accessiblePieces
    bfsLoop selected accessiblePieces accessibleFirstStep bfsFuel
      [(destination, [destination])] {destination}

/-- A rotation request of a bot action: rotate the piece with this id the
given number of 90-degree steps. -/
structure RotationSpec where
  id : Nat
  times : Nat
deriving DecidableEq, Repr

/-- The move part of a bot action: piece id and destination square. -/
structure MoveSpec where
  id : Nat
  dest : Pos
deriving DecidableEq, Repr

/-- A bot action: rotation plan followed by one move/swap (game.js
generateTurnActionsLimited / applyAction). -/
structure BotAction where
  rotations : List RotationSpec
  move : MoveSpec
deriving DecidableEq, Repr

/-- The rules-relevant game state of game.js: pieces, currentPlayer,
rotationChances, playerScores, gameOver. -/
structure GameState where
  pieces : List Piece
  currentPlayer : Nat
  rotationChances : Int
  score1 : Int
  score2 : Int
  gameOver : Bool
deriving DecidableEq, Repr

/-- game.js otherPlayer. -/
def otherPlayer (p : Nat) : Nat := if p = 1 then 2 else 1

/-- game.js canRotateType: DP, DT, DN, C (after stripping the e suffix). -/
def canRotateType (t : PieceType) : Bool :=
  t == .DP || t == .DT || t == .DN || t == .C

/-- idMap.get(id), via the id/piece-collection consistency invariant. -/
def findById (pieces : List Piece) (i : Nat) : Option Piece :=
  pieces.find? (fun p => p.id = i)

/-- n applications of the JS rotation step rotation = (rotation - 90 + 360) % 360. -/
def rotSteps : Nat → Int → Int
  | 0, r => r
  | n + 1, r => rotSteps n ((r - 90 + 360) % 360)

/-- The rotation loop of applyAction (game.js lines 1427-1439): consume up
to 2 chances; each spec rotates its piece min(times, chances) steps; specs
whose piece is missing or not rotation-capable are skipped without
consuming a chance; once chances reach 0 the JS loop breaks, which equals
skipping the remaining specs. -/
def applyRotationsGo : List RotationSpec → List Piece → Nat → List Piece
  | [], pieces, _ => pieces
  | r :: rest, pieces, chances =>
    if chances = 0 then pieces
    else
      let times := min r.times chances
      match findById pieces r.id with
      | none => applyRotationsGo rest pieces chances
      | some p =>
        if canRotateType p.ptype then
          applyRotationsGo rest
            (pieces.map (fun q =>
              if q.id = r.id then { q with rotation := rotSteps times q.rotation } else q))
            (chances - times)
        else applyRotationsGo rest pieces chances

/-- The promotion row: 0 for player 1, BOARD_HEIGHT - 1 for player 2
(game.js lines 889 and 1467). -/
def promoRow (player : Nat) : Int := if player = 1 then 0 else boardHeight - 1

/-- The promotable types: PR and PL. -/
def isPawnType (t : PieceType) : Bool := t == .PR || t == .PL

/-- The shared move/swap position update (game.js applyAction lines
1448-1463 and the onPointerDown/animation-end path): if the destination is
empty, the selected piece relocates there; otherwise the two pieces
exchange positions.  Pieces are identified by id. -/
def moveSwapPieces (pieces : List Piece) (sel : Piece) (dest : Pos) : List Piece :=
  match pieceAt pieces dest with
  | none => pieces.map (fun q => if q.id = sel.id then { q with pos := dest } else q)
  | some tgt => pieces.map (fun q =>
      if q.id = sel.id then { q with pos := dest }
      else if q.id = tgt.id then { q with pos := sel.pos } else q)

/-- game.js GyroadAI.applyAction (lines 1424-1492): apply the rotation
plan, move or swap the selected piece by id, run the promotion check on
the moved piece only (the position test sel.y === promoRow reads the
already-updated position, i.e. dest.y), flip the player, clear
movedLastTurn for everyone and rotatedThisTurn for the new player, then
set gameOver when a score reaches 6. -/
def applyAction (state : GameState) (action : BotAction) : GameState :=
  let pieces0 := applyRotationsGo action.rotations state.pieces 2
  match findById pieces0 action.move.id with
  | none => { state with pieces := pieces0 }
  | some sel =>
    let dest := action.move.dest
    let pieces1 : List Piece := moveSwapPieces pieces0 sel dest
    let promoted := isPawnType sel.ptype && dest.y == promoRow sel.player
    let pieces2 := if promoted then pieces1.filter (fun q => decide (q.id ≠ sel.id)) else pieces1
    let score1 := if promoted && sel.player == 1 then state.score1 + 1 else state.score1
    let score2 := if promoted && sel.player == 2 then state.score2 + 1 else state.score2
    let newPlayer := otherPlayer state.currentPlayer
    let pieces3 := pieces2.map (fun q =>
      if q.player = newPlayer then { q with movedLastTurn := false, rotatedThisTurn := false }
      else { q with movedLastTurn := false })
    { pieces := pieces3, currentPlayer := newPlayer,
      rotationChances := state.rotationChances,
      score1 := score1, score2 := score2,
      gameOver := state.gameOver || decide (score1 ≥ 6) || decide (score2 ≥ 6) }

/-- game.js endTurn (lines 451-463): flip the player, reset rotation
chances to 2, clear movedLastTurn and rotatedThisTurn for the new current
player's pieces, and clear movedLastTurn for the other player's pieces
(the JS conditional assignment equals unconditionally clearing it). -/
def endTurnStep (state : GameState) : GameState :=
  let newPlayer := otherPlayer state.currentPlayer
  { state with
    currentPlayer := newPlayer,
    rotationChances := 2,
    pieces := state.pieces.map (fun p =>
      if p.player = newPlayer then { p with movedLastTurn := false, rotatedThisTurn := false }
      else { p with movedLastTurn := false }) }

/-- Whether a piece is a PR/PL standing on its owner's promotion row. -/
def promotedOnRow (p : Piece) : Bool :=
  isPawnType p.ptype && p.pos.y == promoRow p.player

/-- game.js update() promotion sweep (lines 886-895): iterate the pieces
array from the last index down to 0, splicing out every PR/PL standing on
its promotion row and incrementing its owner's score; foldr visits the
elements in the same back-to-front order. -/
def promotionSweep (pieces : List Piece) (score1 score2 : Int) :
    List Piece × Int × Int :=
  pieces.foldr
    (fun p acc =>
      if promotedOnRow p then
        (acc.1,
         (if p.player = 1 then acc.2.1 + 1 else acc.2.1),
         (if p.player = 2 then acc.2.2 + 1 else acc.2.2))
      else (p :: acc.1, acc.2.1, acc.2.2))
    ([], score1, score2)

/-- The game.js live commit path for a completed move or swap, combining
onPointerDown's board updates (lines 654-694), the end-of-animation
position updates, and update()'s rebuildBoard, promotion sweep, win check
and endTurn (lines 878-909).  No statement in this path ever sets a
movedLastTurn flag. -/
def commitMoveOrSwap (state : GameState) (sel : Piece) (dest : Pos) : GameState :=
  let pieces1 : List Piece := moveSwapPieces state.pieces sel dest
  let swept := promotionSweep pieces1 state.score1 state.score2
  let afterSweep : GameState :=
    { state with pieces := swept.1, score1 := swept.2.1, score2 := swept.2.2 }
  if swept.2.1 ≥ 6 ∨ swept.2.2 ≥ 6 then { afterSweep with gameOver := true }
  else endTurnStep afterSweep

/-- Scenario board: friendly DP pieces at (3,3) and (3,2), player 1.
The second stands on a raw candidate square of the first (its forward
square), and (2,2) is an empty raw candidate square of the second that is
not a raw candidate of the first. -/
def pieceA : Piece := ⟨1, ⟨3, 3⟩, .DP, 1, 0, false, false⟩

def pieceB : Piece := ⟨2, ⟨3, 2⟩, .DP, 1, 0, false, false⟩

def boardAB : Board := [pieceA, pieceB]

/-- Scenario state for the promotion claim: player 1's DP on its own
promotion row at (3,0) with a friendly PR on its left candidate (2,0). -/
def promoSel : Piece := ⟨1, ⟨3, 0⟩, .DP, 1, 0, false, false⟩

def promoPawn : Piece := ⟨2, ⟨2, 0⟩, .PR, 1, 0, false, false⟩

def promoState : GameState :=
  ⟨[promoSel, promoPawn], 1, 2, 0, 0, false⟩

/-- The swap of the scenario DP into the friendly pawn's square, sending
the pawn to (3,0) on player 1's promotion row. -/
def promoAction : BotAction := ⟨[], ⟨1, ⟨2, 0⟩⟩⟩

/-- Scenario state for the selection-blocking claim: player 1's DP at
(3,3) with a friendly PR at (2,3) offering the empty square (1,3). -/
def moveSel : Piece := ⟨1, ⟨3, 3⟩, .DP, 1, 0, false, false⟩

def movePawn : Piece := ⟨2, ⟨2, 3⟩, .PR, 1, 0, false, false⟩

def moveState : GameState :=
  ⟨[moveSel, movePawn], 1, 2, 0, 0, false⟩

/-- Pointwise negation of an offset vector; the player-2 direction frame
is the point reflection of the player-1 frame. -/
def negPos (d : Pos) : Pos := ⟨-d.x, -d.y⟩

/-- Moved-pawn scenario for the amended promotion statement: a single
player-1 PR one step from its promotion row, moved there directly. -/
def amendSel : Piece := ⟨1, ⟨2, 1⟩, .PR, 1, 0, false, false⟩

def amendState : GameState := ⟨[amendSel], 1, 2, 0, 0, false⟩

def amendAction : BotAction := ⟨[], ⟨1, ⟨2, 0⟩⟩⟩

/-- One hop of the path relation, read in [D, ..., S] order: for a
consecutive pair (X, Y), X is among the raw candidate squares of the
piece standing at Y. -/
def hopStep (b : Board) (X Y : Pos) : Prop :=
  ∃ q : Piece, pieceAt b Y = some q ∧ X ∈ getAvailableSquares q

/-- Invariant of every queue entry of the pathfinder BFS: the stored path
starts at the destination, ends at the entry's position, is a chain of
hops, its second element avoids the selected piece's square when the
destination is empty, and only the initial entry has a length-1 path. -/
def PathEntryInv (b : Board) (S : Piece) (D : Pos) (destEmpty : Bool)
    (e : Pos × List Pos) : Prop :=
  e.2 ≠ [] ∧ e.2.head? = some D ∧ e.2.getLast? = some e.1 ∧
  List.Chain' (hopStep b) e.2 ∧
  (destEmpty = true → ∀ y, e.2[1]? = some y → y ≠ S.pos) ∧
  (e.2.length = 1 → e.1 = D)

/-- The reversed-path property claimed for the pathfinder's output:
non-empty, endpoints S then D, every hop backed by the standing piece's
raw candidates, and the first hop owner distinct from S when the
destination is empty. -/
def PathOk (b : Board) (S : Piece) (D : Pos) (path : List Pos) : Prop :=
  path ≠ [] ∧ path.head? = some S.pos ∧ path.getLast? = some D ∧
  List.Chain' (hopStep b) path.reverse ∧
  ((pieceAt b D).isNone = true → ∀ y, path.reverse[1]? = some y → y ≠ S.pos)

/-- A backward edge of the BFS graph: y is the square of a piece of the
consider set whose raw candidates include x; the side condition keeps the
chain away from the empty destination square. -/
def pathEdge (A : List Piece) (destEmpty : Bool) (D : Pos) (x y : Pos) : Prop :=
  (∃ p ∈ A, p.pos = y ∧ x ∈ getAvailableSquares p) ∧ (destEmpty = true → x ≠ D)

/-- Closure of a processed BFS node: all its eligible backward edges lead
into the visited set (the initial node may only be closed with respect to
the restricted first-step set). -/
def ClosedAtP (F A : List Piece) (D : Pos) (visited : Finset Pos) (x : Pos) : Prop :=
  (x = D ∧ ∀ p ∈ F, x ∈ getAvailableSquares p → p.pos ∈ visited) ∨
  (∀ p ∈ A, x ∈ getAvailableSquares p → p.pos ∈ visited)

end Gyroad

namespace Gyroad

theorem pieceAt_some {b : Board} {pos : Pos} {q : Piece}
    (h : pieceAt b pos = some q) : q ∈ b ∧ q.pos = pos := by
  unfold pieceAt at h
  refine ⟨List.mem_of_find?_eq_some h, ?_⟩
  have := List.find?_some h
  simpa using this

theorem pieceAt_of_mem {b : Board} {q : Piece}
    (hdist : b.Pairwise (fun p q => p.pos ≠ q.pos)) (hq : q ∈ b) :
    pieceAt b q.pos = some q := by
  induction b with
  | nil => simp at hq
  | cons h t ih =>
    rcases List.mem_cons.mp hq with rfl | hq'
    · unfold pieceAt
      simp [List.find?]
    · have hne : h.pos ≠ q.pos := (List.pairwise_cons.mp hdist).1 q hq'
      unfold pieceAt
      rw [List.find?]
      have : (decide (h.pos = q.pos)) = false := by
        simp [hne]
      rw [this]
      exact ih (List.pairwise_cons.mp hdist).2 hq'

theorem pieceAt_none {b : Board} {pos : Pos} :
    pieceAt b pos = none ↔ ∀ q ∈ b, q.pos ≠ pos := by
  unfold pieceAt
  rw [List.find?_eq_none]
  simp

theorem mem_getAvailableSquares_valid {p : Piece} {q : Pos}
    (h : q ∈ getAvailableSquares p) : isValidPosition q.x q.y = true := by
  unfold getAvailableSquares at h
  exact (List.mem_filter.mp h).2

theorem mem_piecesOnAvailableOf {b : Board} {p t : Piece} :
    t ∈ piecesOnAvailableOf b p ↔
      ∃ pos ∈ getAvailableSquares p, isValidPosition pos.x pos.y = true ∧
        pieceAt b pos = some t := by
  unfold piecesOnAvailableOf
  rw [List.mem_filterMap]
  constructor
  · rintro ⟨pos, hmem, heq⟩
    by_cases hv : isValidPosition pos.x pos.y = true
    · exact ⟨pos, hmem, hv, by simpa [hv] using heq⟩
    · simp [hv] at heq
  · rintro ⟨pos, hmem, hv, heq⟩
    exact ⟨pos, hmem, by simp [hv, heq]⟩

theorem piecesOnAvailableOf_pieceAt {b : Board} {p t : Piece}
    (h : t ∈ piecesOnAvailableOf b p) : pieceAt b t.pos = some t := by
  obtain ⟨pos, _, _, heq⟩ := mem_piecesOnAvailableOf.mp h
  have := (pieceAt_some heq).2
  rwa [this]

theorem piecesOnAvailableOf_mem_board {b : Board} {p t : Piece}
    (h : t ∈ piecesOnAvailableOf b p) : t ∈ b := by
  obtain ⟨pos, _, _, heq⟩ := mem_piecesOnAvailableOf.mp h
  exact (pieceAt_some heq).1

theorem piecesOnAvailableOf_pos_mem_validCandidates {b : Board} {p t : Piece}
    (h : t ∈ piecesOnAvailableOf b p) : t.pos ∈ validCandidates p := by
  obtain ⟨pos, hmem, hv, heq⟩ := mem_piecesOnAvailableOf.mp h
  have hpos := (pieceAt_some heq).2
  unfold validCandidates
  rw [List.mem_toFinset, List.mem_filter]
  exact ⟨hpos ▸ hmem, by rw [hpos]; simpa using hv⟩

theorem piecesOnAvailableOf_pos_mem_occCandidates {b : Board} {p t : Piece}
    (h : t ∈ piecesOnAvailableOf b p) : t.pos ∈ occCandidates b p := by
  obtain ⟨pos, hmem, hv, heq⟩ := mem_piecesOnAvailableOf.mp h
  have hpos := (pieceAt_some heq).2
  unfold occCandidates
  rw [List.mem_toFinset, List.mem_filter]
  subst hpos
  exact ⟨hmem, by simp [hv, heq]⟩

theorem mem_occCandidates {b : Board} {p : Piece} {pos : Pos} :
    pos ∈ occCandidates b p ↔
      pos ∈ getAvailableSquares p ∧ isValidPosition pos.x pos.y = true ∧
        (pieceAt b pos).isSome = true := by
  unfold occCandidates
  rw [List.mem_toFinset, List.mem_filter]
  simp

theorem mem_validCandidates {p : Piece} {pos : Pos} :
    pos ∈ validCandidates p ↔
      pos ∈ getAvailableSquares p ∧ isValidPosition pos.x pos.y = true := by
  unfold validCandidates
  rw [List.mem_toFinset, List.mem_filter]

theorem occCandidates_subset_validCandidates {b : Board} {p : Piece} :
    occCandidates b p ⊆ validCandidates p := by
  intro x hx
  rw [mem_occCandidates] at hx
  rw [mem_validCandidates]
  exact ⟨hx.1, hx.2.1⟩

theorem loop3Inner_spec (l : List Pos) (acc visPos : Finset Pos) :
    loop3Inner l (acc, visPos) =
      (acc ∪ (validPosSet l \ visPos), visPos ∪ validPosSet l) := by
  induction l generalizing acc visPos with
  | nil => simp [loop3Inner, validPosSet]
  | cons pos rest ih =>
    by_cases hv : isValidPosition pos.x pos.y = true
    · have hset : validPosSet (pos :: rest) = insert pos (validPosSet rest) := by
        simp [validPosSet, hv]
      by_cases hm : pos ∈ visPos
      · rw [loop3Inner, if_neg (by tauto), ih, hset]
        simp only [Prod.mk.injEq]
        constructor
        · ext x
          simp only [Finset.mem_union, Finset.mem_sdiff, Finset.mem_insert]
          constructor
          · intro hx; tauto
          · rintro (hx | ⟨hx1 | hx1, hx2⟩)
            · tauto
            · exact absurd (hx1 ▸ hm) hx2
            · tauto
        · ext x
          simp only [Finset.mem_union, Finset.mem_insert]
          constructor
          · intro hx; tauto
          · rintro (hx | hx | hx)
            · tauto
            · subst hx; tauto
            · tauto
      · rw [loop3Inner, if_pos ⟨hv, hm⟩, ih, hset]
        simp only [Prod.mk.injEq]
        constructor
        · ext x
          simp only [Finset.mem_union, Finset.mem_sdiff, Finset.mem_insert, not_or]
          constructor
          · rintro ((hx | hx) | ⟨hx1, hx2, hx3⟩)
            · subst hx; exact Or.inr ⟨Or.inl rfl, hm⟩
            · tauto
            · tauto
          · rintro (hx | ⟨hx1 | hx1, hx2⟩)
            · tauto
            · subst hx1; tauto
            · by_cases hxp : x = pos
              · subst hxp; tauto
              · exact Or.inr ⟨hx1, hxp, hx2⟩
        · ext x
          simp only [Finset.mem_union, Finset.mem_insert]
          tauto
    · rw [loop3Inner, if_neg (by tauto), ih]
      have hset : validPosSet (pos :: rest) = validPosSet rest := by
        simp [validPosSet, hv]
      rw [hset]

theorem loop3_spec (originPiece piece : Piece) (targets : List Piece)
    (acc visPos : Finset Pos) :
    loop3 originPiece piece targets (acc, visPos) =
      (acc ∪ (loop3Union originPiece piece targets \ visPos),
       visPos ∪ loop3Union originPiece piece targets) := by
  induction targets generalizing acc visPos with
  | nil => simp [loop3, loop3Union]
  | cons t rest ih =>
    rw [loop3, loop3Union]
    by_cases hc : t.player = piece.player ∧ t.pos ≠ originPiece.pos
    · rw [if_pos hc, if_pos hc]
      have hval : validPosSet (getAvailableSquares t) = validCandidates t := rfl
      rw [loop3Inner_spec, hval, ih]
      simp only [Prod.mk.injEq]
      constructor
      · ext x
        simp only [Finset.mem_union, Finset.mem_sdiff]
        tauto
      · ext x
        simp only [Finset.mem_union]
        tauto
    · rw [if_neg hc, if_neg hc, ih]
      simp

theorem mem_loop3Union {o p : Piece} {l : List Piece} {x : Pos} :
    x ∈ loop3Union o p l ↔
      ∃ t ∈ l, (t.player = p.player ∧ t.pos ≠ o.pos) ∧ x ∈ validCandidates t := by
  induction l with
  | nil => simp [loop3Union]
  | cons t rest ih =>
    rw [loop3Union]
    by_cases hc : t.player = p.player ∧ t.pos ≠ o.pos
    · rw [if_pos hc]
      rw [Finset.mem_union, ih]
      constructor
      · rintro (hx | ⟨u, hu, hcond, hxu⟩)
        · exact ⟨t, List.mem_cons_self t rest, hc, hx⟩
        · exact ⟨u, List.mem_cons_of_mem t hu, hcond, hxu⟩
      · rintro ⟨u, hu, hcond, hxu⟩
        rcases List.mem_cons.mp hu with rfl | hu'
        · exact Or.inl hxu
        · exact Or.inr ⟨u, hu', hcond, hxu⟩
    · rw [if_neg hc, Finset.empty_union, ih]
      constructor
      · rintro ⟨u, hu, hcond, hxu⟩
        exact ⟨u, List.mem_cons_of_mem t hu, hcond, hxu⟩
      · rintro ⟨u, hu, hcond, hxu⟩
        rcases List.mem_cons.mp hu with rfl | hu'
        · exact absurd hcond hc
        · exact ⟨u, hu', hcond, hxu⟩

theorem validCandidates_subset_loop3Union {o p t : Piece} {l : List Piece}
    (ht : t ∈ l) (hpl : t.player = p.player) (hne : t.pos ≠ o.pos) :
    validCandidates t ⊆ loop3Union o p l :=
  fun _ hx => mem_loop3Union.mpr ⟨t, ht, ⟨hpl, hne⟩, hx⟩

theorem chain_pieceAt {b : Board} {o p t : Piece} (h : Chain b o p t) :
    pieceAt b t.pos = some t := by
  induction h with
  | single h => exact piecesOnAvailableOf_pieceAt h.1
  | tail _ hedge _ => exact piecesOnAvailableOf_pieceAt hedge.1

theorem chain_player {b : Board} {o p t : Piece} (h : Chain b o p t) :
    t.player = p.player := by
  induction h with
  | single h => exact h.2.1
  | tail _ hedge ih => exact hedge.2.1.trans ih

theorem chain_ne_origin {b : Board} {o p t : Piece} (h : Chain b o p t) :
    t.pos ≠ o.pos := by
  induction h with
  | single h => exact h.2.2
  | tail _ hedge _ => exact hedge.2.2

theorem loop2_out {b : Board} {o p : Piece}
    {recurse : Piece → Finset Pos → Finset Pos → Option (Finset Pos × Finset Pos × Finset Pos)}
    (hrec : ∀ t vp vpc res, pieceAt b t.pos = some t → t.pos ∉ vpc →
      recurse t vp vpc = some res → ResolveOut b o t vp vpc res) :
    ∀ (targets : List Piece), (∀ t ∈ targets, t ∈ piecesOnAvailableOf b p) →
    ∀ acc vp vpc res, p.pos ∈ vpc →
      loop2 recurse o p targets (acc, vp, vpc) = some res →
      Loop2Out b o p acc vp vpc res ∧
        (∀ t ∈ targets, t.player = p.player → t.pos ≠ o.pos → t.pos ∈ res.2.2) := by
  intro targets
  induction targets with
  | nil =>
    intro _ acc vp vpc res _ heq
    rw [loop2] at heq
    cases heq
    refine ⟨⟨fun _ h => h, fun _ h => h, fun _ h => h, fun x hx => Or.inl hx,
      fun x hx => Or.inl hx, fun x hx => Or.inl hx, ?_⟩, by simp⟩
    intro q _ hin hnotin
    exact absurd hin hnotin
  | cons t rest ih =>
    intro htargets acc vp vpc res hpin heq
    have htmem : t ∈ piecesOnAvailableOf b p := htargets t (List.mem_cons_self t rest)
    have htrest : ∀ u ∈ rest, u ∈ piecesOnAvailableOf b p :=
      fun u hu => htargets u (List.mem_cons_of_mem t hu)
    rw [loop2] at heq
    by_cases hply : t.player = p.player
    · rw [if_pos hply] at heq
      by_cases hvis : t.pos ∉ vpc
      · rw [if_pos hvis] at heq
        by_cases horig : t.pos ≠ o.pos
        · rw [if_pos horig] at heq
          cases hr : recurse t vp vpc with
          | none => rw [hr] at heq; cases heq
          | some child =>
            rw [hr] at heq
            have hedge : edgeStep b o p t := ⟨htmem, hply, horig⟩
            have hchainPT : Chain b o p t := Relation.TransGen.single hedge
            have hc : ResolveOut b o t vp vpc child :=
              hrec t vp vpc child (piecesOnAvailableOf_pieceAt htmem) hvis hr
            obtain ⟨hR, hT⟩ := ih htrest (acc ∪ child.1) child.2.1 child.2.2 res
              (hc.vpc_mono hpin) heq
            have hchild_acc_sub : child.1 ⊆ res.1 :=
              fun x hx => hR.acc_mono (Finset.mem_union_right acc hx)
            have hlift : ∀ u, Chain b o t u → Chain b o p u :=
              fun u hu => Relation.TransGen.head hedge hu
            refine ⟨⟨?_, ?_, ?_, ?_, ?_, ?_, ?_⟩, ?_⟩
            · exact fun x hx => hR.acc_mono (Finset.mem_union_left _ hx)
            · exact fun x hx => hR.vp_mono (hc.vp_mono hx)
            · exact fun x hx => hR.vpc_mono (hc.vpc_mono hx)
            · intro x hx
              rcases hR.vpc_sound x hx with hx' | ⟨u, hu, hxu⟩
              · rcases hc.vpc_sound x hx' with hx'' | hx'' | ⟨u, hu, hxu⟩
                · exact Or.inl hx''
                · exact Or.inr ⟨t, hchainPT, hx''⟩
                · exact Or.inr ⟨u, hlift u hu, hxu⟩
              · exact Or.inr ⟨u, hu, hxu⟩
            · intro x hx
              rcases hR.vp_in_acc x hx with hx' | hx'
              · rcases hc.vp_in_acc x hx' with hx'' | hx''
                · exact Or.inl hx''
                · exact Or.inr (hchild_acc_sub hx'')
              · exact Or.inr hx'
            · intro x hx
              rcases hR.acc_sound x hx with hx' | hx' | hx' | hx'
              · rcases Finset.mem_union.mp hx' with hx'' | hx''
                · exact Or.inl hx''
                · rcases hc.acc_sound x hx'' with hy | ⟨q, hq, hy⟩ | ⟨q, u, hq, he, hy⟩
                  · exact Or.inr (Or.inr (Or.inl ⟨t, hchainPT, hy⟩))
                  · exact Or.inr (Or.inr (Or.inl ⟨q, hlift q hq, hy⟩))
                  · refine Or.inr (Or.inr (Or.inr ⟨q, u, Or.inr ?_, he, hy⟩))
                    rcases hq with rfl | hq
                    · exact hchainPT
                    · exact hlift q hq
              · exact Or.inr (Or.inl hx')
              · exact Or.inr (Or.inr (Or.inl hx'))
              · exact Or.inr (Or.inr (Or.inr hx'))
            · intro q hq hqin hqnotin
              by_cases hqc : q.pos ∈ child.2.2
              · obtain ⟨hedgepart, hoccpart⟩ := hc.complete q hq hqc hqnotin
                refine ⟨?_, ?_⟩
                · intro u hu
                  obtain ⟨h1, h2, h3⟩ := hedgepart u hu
                  refine ⟨hR.vpc_mono h1, fun z hz => hR.vp_mono (h2 hz), ?_⟩
                  intro z hz
                  rcases h3 z hz with hz' | hz'
                  · exact Or.inl (hchild_acc_sub hz')
                  · exact Or.inr hz'
                · exact fun z hz => hchild_acc_sub (hoccpart z hz)
              · obtain ⟨hedgepart, hoccpart⟩ := hR.complete q hq hqin hqc
                refine ⟨?_, ?_⟩
                · intro u hu
                  obtain ⟨h1, h2, h3⟩ := hedgepart u hu
                  refine ⟨h1, h2, ?_⟩
                  intro z hz
                  rcases h3 z hz with hz' | hz'
                  · exact Or.inl hz'
                  · rcases hc.vp_in_acc z hz' with hz'' | hz''
                    · exact Or.inr hz''
                    · exact Or.inl (hchild_acc_sub hz'')
                · exact hoccpart
            · intro u hu hupl huorig
              rcases List.mem_cons.mp hu with rfl | hu'
              · exact hR.vpc_mono hc.self_mem
              · exact hT u hu' hupl huorig
        · rw [if_neg horig] at heq
          obtain ⟨hR, hT⟩ := ih htrest acc vp vpc res hpin heq
          refine ⟨hR, ?_⟩
          intro u hu hupl huorig
          rcases List.mem_cons.mp hu with rfl | hu'
          · exact absurd huorig horig
          · exact hT u hu' hupl huorig
      · rw [if_neg hvis] at heq
        push_neg at hvis
        obtain ⟨hR, hT⟩ := ih htrest acc vp vpc res hpin heq
        refine ⟨hR, ?_⟩
        intro u hu hupl huorig
        rcases List.mem_cons.mp hu with rfl | hu'
        · exact hR.vpc_mono hvis
        · exact hT u hu' hupl huorig
    · rw [if_neg hply] at heq
      obtain ⟨hR, hT⟩ := ih htrest (insert t.pos acc) vp vpc res hpin heq
      have htpos : t.pos ∈ occCandidates b p := piecesOnAvailableOf_pos_mem_occCandidates htmem
      refine ⟨⟨?_, hR.vp_mono, hR.vpc_mono, hR.vpc_sound, hR.vp_in_acc, ?_, hR.complete⟩, ?_⟩
      · exact fun x hx => hR.acc_mono (Finset.mem_insert_of_mem hx)
      · intro x hx
        rcases hR.acc_sound x hx with hx' | hx' | hx' | hx'
        · rcases Finset.mem_insert.mp hx' with rfl | hx''
          · exact Or.inr (Or.inl htpos)
          · exact Or.inl hx''
        · exact Or.inr (Or.inl hx')
        · exact Or.inr (Or.inr (Or.inl hx'))
        · exact Or.inr (Or.inr (Or.inr hx'))
      · intro u hu hupl huorig
        rcases List.mem_cons.mp hu with rfl | hu'
        · exact absurd hupl hply
        · exact hT u hu' hupl huorig

theorem resolveFuelO_succ (reorder : List Piece → List Piece) (fuel : Nat)
    (p o : Piece) (b : Board) (vp vpc : Finset Pos) :
    resolveFuelO reorder (fuel + 1) p o b vp vpc =
      (match loop2 (fun t vp vpc => resolveFuelO reorder fuel t o b vp vpc) o p
          (reorder (piecesOnAvailableOf b p)) (occCandidates b p, vp, insert p.pos vpc) with
      | none => none
      | some (acc2, visPos2, visPieces2) =>
        let st3 := loop3 o p (reorder (piecesOnAvailableOf b p)) (acc2, visPos2)
        some (st3.1, st3.2, visPieces2)) := rfl

theorem resolveFuelO_out {b : Board} {o : Piece}
    (reorder : List Piece → List Piece)
    (hmem : ∀ (l : List Piece) (x : Piece), x ∈ reorder l ↔ x ∈ l) :
    ∀ (fuel : Nat) (p : Piece) (vp vpc : Finset Pos)
      (res : Finset Pos × Finset Pos × Finset Pos),
      pieceAt b p.pos = some p → p.pos ∉ vpc →
      resolveFuelO reorder fuel p o b vp vpc = some res →
      ResolveOut b o p vp vpc res := by
  intro fuel
  induction fuel with
  | zero =>
    intro p vp vpc res _ _ heq
    rw [resolveFuelO] at heq
    cases heq
  | succ fuel ih =>
    intro p vp vpc res hp hpnot heq
    rw [resolveFuelO_succ] at heq
    cases h2 : loop2 (fun t vp vpc => resolveFuelO reorder fuel t o b vp vpc) o p
        (reorder (piecesOnAvailableOf b p)) (occCandidates b p, vp, insert p.pos vpc) with
    | none => rw [h2] at heq; cases heq
    | some st2 =>
      rw [h2] at heq
      obtain ⟨acc2, vp2, vpc2⟩ := st2
      dsimp only at heq
      rw [loop3_spec] at heq
      cases heq
      set targets := reorder (piecesOnAvailableOf b p) with htargets_def
      have htargets : ∀ t ∈ targets, t ∈ piecesOnAvailableOf b p :=
        fun t ht => (hmem _ t).mp ht
      obtain ⟨hL, hT⟩ := loop2_out (p := p)
        (fun t vp vpc res h1 h2 h3 => ih t vp vpc res h1 h2 h3)
        targets htargets (occCandidates b p) vp (insert p.pos vpc) (acc2, vp2, vpc2)
        (Finset.mem_insert_self p.pos vpc) h2
      set U := loop3Union o p targets with hU_def
      have hUsub : ∀ t : Piece, edgeStep b o p t → validCandidates t ⊆ U := by
        intro t hedge
        exact validCandidates_subset_loop3Union ((hmem _ t).mpr hedge.1) hedge.2.1 hedge.2.2
      have hUmem : ∀ x ∈ U, ∃ t, edgeStep b o p t ∧ x ∈ validCandidates t := by
        intro x hx
        obtain ⟨t, ht, ⟨hpl, hne⟩, hxt⟩ := mem_loop3Union.mp hx
        exact ⟨t, ⟨htargets t ht, hpl, hne⟩, hxt⟩
      have hacc2sub : acc2 ⊆ acc2 ∪ (U \ vp2) := Finset.subset_union_left
      refine ⟨?_, ?_, ?_, ?_, ?_, ?_, ?_⟩
      · exact fun x hx => Finset.mem_union_left U (hL.vp_mono hx)
      · exact fun x hx => hL.vpc_mono (Finset.mem_insert_of_mem hx)
      · exact hL.vpc_mono (Finset.mem_insert_self p.pos vpc)
      · intro x hx
        rcases hL.vpc_sound x hx with hx' | ⟨u, hu, hxu⟩
        · rcases Finset.mem_insert.mp hx' with hx'' | hx''
          · exact Or.inr (Or.inl hx'')
          · exact Or.inl hx''
        · exact Or.inr (Or.inr ⟨u, hu, hxu⟩)
      · intro x hx
        rcases Finset.mem_union.mp hx with hx' | hx'
        · rcases hL.vp_in_acc x hx' with hx'' | hx''
          · exact Or.inl hx''
          · exact Or.inr (hacc2sub hx'')
        · by_cases hx2 : x ∈ vp2
          · rcases hL.vp_in_acc x hx2 with hx'' | hx''
            · exact Or.inl hx''
            · exact Or.inr (hacc2sub hx'')
          · exact Or.inr (Finset.mem_union_right acc2 (Finset.mem_sdiff.mpr ⟨hx', hx2⟩))
      · intro x hx
        rcases Finset.mem_union.mp hx with hx' | hx'
        · rcases hL.acc_sound x hx' with hx'' | hx'' | hx'' | hx''
          · exact Or.inl hx''
          · exact Or.inl hx''
          · exact Or.inr (Or.inl hx'')
          · exact Or.inr (Or.inr hx'')
        · obtain ⟨t, hedge, hxt⟩ := hUmem x (Finset.mem_sdiff.mp hx').1
          exact Or.inr (Or.inr ⟨p, t, Or.inl rfl, hedge, hxt⟩)
      · intro q hq hqin hqnot
        by_cases hqp : q.pos = p.pos
        · have hqeq : q = p := by
            rw [hqp] at hq
            rw [hp] at hq
            exact (Option.some.inj hq).symm
          subst hqeq
          refine ⟨?_, ?_⟩
          · intro t hedge
            have ht : t ∈ targets := (hmem _ t).mpr hedge.1
            refine ⟨hT t ht hedge.2.1 hedge.2.2,
              fun z hz => Finset.mem_union_right vp2 (hUsub t hedge hz), ?_⟩
            intro z hz
            have hzU : z ∈ U := hUsub t hedge hz
            by_cases hz2 : z ∈ vp2
            · rcases hL.vp_in_acc z hz2 with hz' | hz'
              · exact Or.inr hz'
              · exact Or.inl (hacc2sub hz')
            · exact Or.inl (Finset.mem_union_right acc2 (Finset.mem_sdiff.mpr ⟨hzU, hz2⟩))
          · exact fun z hz => hacc2sub (hL.acc_mono hz)
        · have hqnot' : q.pos ∉ insert p.pos vpc := by
            rw [Finset.mem_insert]
            push_neg
            exact ⟨hqp, hqnot⟩
          obtain ⟨hedgepart, hoccpart⟩ := hL.complete q hq hqin hqnot'
          refine ⟨?_, fun z hz => hacc2sub (hoccpart z hz)⟩
          intro t hedge
          obtain ⟨h1, h2', h3⟩ := hedgepart t hedge
          refine ⟨h1, fun z hz => Finset.mem_union_left U (h2' hz), ?_⟩
          intro z hz
          rcases h3 z hz with hz' | hz'
          · exact Or.inl (hacc2sub hz')
          · exact Or.inr hz'

theorem mem_boardPositions {b : Board} {x : Pos} :
    x ∈ boardPositions b ↔ ∃ p ∈ b, p.pos = x := by
  unfold boardPositions
  rw [List.mem_toFinset, List.mem_map]

theorem linked_pos_mem_visited {b : Board} {o : Piece}
    {res : Finset Pos × Finset Pos × Finset Pos}
    (ho : pieceAt b o.pos = some o) (R : ResolveOut b o o ∅ ∅ res) :
    ∀ t : Piece, Linked b o t → t.pos ∈ res.2.2 := by
  intro t hlink
  induction hlink with
  | single h =>
    exact ((R.complete o ho R.self_mem (Finset.not_mem_empty o.pos)).1 _ h).1
  | tail hc he ih =>
    have hu := chain_pieceAt hc
    exact ((R.complete _ hu ih (Finset.not_mem_empty _)).1 _ he).1

/-- Root characterization of the resolver's visitedPieces set: exactly the
origin square plus the squares of the linked pieces. -/
theorem resolveO_visited_iff {b : Board} {o : Piece}
    {res : Finset Pos × Finset Pos × Finset Pos}
    (ho : pieceAt b o.pos = some o) (R : ResolveOut b o o ∅ ∅ res) :
    ∀ x, x ∈ res.2.2 ↔ x = o.pos ∨ ∃ t, Linked b o t ∧ x = t.pos := by
  intro x
  constructor
  · intro hx
    rcases R.vpc_sound x hx with hx' | hx' | hx'
    · exact absurd hx' (Finset.not_mem_empty x)
    · exact Or.inl hx'
    · exact Or.inr hx'
  · rintro (rfl | ⟨t, hlink, rfl⟩)
    · exact R.self_mem
    · exact linked_pos_mem_visited ho R t hlink

/-- Root characterization of the resolver's accessibleSquares set: the
occupied candidate squares of the origin and of every linked piece, plus
all valid candidate squares of every linked piece. -/
theorem resolveO_acc_iff {b : Board} {o : Piece}
    {res : Finset Pos × Finset Pos × Finset Pos}
    (ho : pieceAt b o.pos = some o) (R : ResolveOut b o o ∅ ∅ res) :
    ∀ x, x ∈ res.1 ↔
      (∃ q, (q = o ∨ Linked b o q) ∧ x ∈ occCandidates b q) ∨
      (∃ t, Linked b o t ∧ x ∈ validCandidates t) := by
  intro x
  constructor
  · intro hx
    rcases R.acc_sound x hx with hx' | ⟨q, hq, hx'⟩ | ⟨q, t, hq, hedge, hx'⟩
    · exact Or.inl ⟨o, Or.inl rfl, hx'⟩
    · exact Or.inl ⟨q, Or.inr hq, hx'⟩
    · refine Or.inr ⟨t, ?_, hx'⟩
      rcases hq with rfl | hq
      · exact Relation.TransGen.single hedge
      · exact Relation.TransGen.tail hq hedge
  · rintro (⟨q, hq, hx⟩ | ⟨t, hlink, hx⟩)
    · rcases hq with rfl | hq
      · exact (R.complete q ho R.self_mem (Finset.not_mem_empty _)).2 x hx
      · exact (R.complete q (chain_pieceAt hq)
          (linked_pos_mem_visited ho R q hq) (Finset.not_mem_empty _)).2 x hx
    · cases hlink with
      | single h =>
        rcases ((R.complete o ho R.self_mem (Finset.not_mem_empty _)).1 _ h).2.2 x hx with
          hz | hz
        · exact hz
        · exact absurd hz (Finset.not_mem_empty x)
      | tail hc he =>
        rcases ((R.complete _ (chain_pieceAt hc)
            (linked_pos_mem_visited ho R _ hc) (Finset.not_mem_empty _)).1 _ he).2.2 x hx with
          hz | hz
        · exact hz
        · exact absurd hz (Finset.not_mem_empty x)

theorem loop2_congr
    {r₁ r₂ : Piece → Finset Pos → Finset Pos → Option (Finset Pos × Finset Pos × Finset Pos)}
    (h : ∀ t vp vpc, r₁ t vp vpc = r₂ t vp vpc) (o p : Piece) :
    ∀ (l : List Piece) (st : Finset Pos × Finset Pos × Finset Pos),
      loop2 r₁ o p l st = loop2 r₂ o p l st := by
  intro l
  induction l with
  | nil => intro st; rfl
  | cons t rest ih =>
    intro st
    obtain ⟨acc, vp, vpc⟩ := st
    rw [loop2, loop2]
    by_cases h1 : t.player = p.player
    · rw [if_pos h1, if_pos h1]
      by_cases h2 : t.pos ∉ vpc
      · rw [if_pos h2, if_pos h2]
        by_cases h3 : t.pos ≠ o.pos
        · rw [if_pos h3, if_pos h3, h]
          cases r₂ t vp vpc with
          | none => rfl
          | some child => exact ih _
        · rw [if_neg h3, if_neg h3]; exact ih _
      · rw [if_neg h2, if_neg h2]; exact ih _
    · rw [if_neg h1, if_neg h1]; exact ih _

theorem resolveFuel_succ (fuel : Nat) (p o : Piece) (b : Board) (vp vpc : Finset Pos) :
    resolveFuel (fuel + 1) p o b vp vpc =
      (match loop2 (fun t vp vpc => resolveFuel fuel t o b vp vpc) o p
          (piecesOnAvailableOf b p) (occCandidates b p, vp, insert p.pos vpc) with
      | none => none
      | some (acc2, visPos2, visPieces2) =>
        let st3 := loop3 o p (piecesOnAvailableOf b p) (acc2, visPos2)
        some (st3.1, st3.2, visPieces2)) := rfl

/-- The source resolver equals the reorder-generalised resolver with the
identity processing order. -/
theorem resolveFuel_eq_resolveFuelO :
    ∀ (fuel : Nat) (p o : Piece) (b : Board) (vp vpc : Finset Pos),
      resolveFuel fuel p o b vp vpc = resolveFuelO (fun l => l) fuel p o b vp vpc := by
  intro fuel
  induction fuel with
  | zero => intro p o b vp vpc; rfl
  | succ fuel ih =>
    intro p o b vp vpc
    rw [resolveFuel_succ, resolveFuelO_succ]
    rw [loop2_congr (fun t vp vpc => ih t o b vp vpc) o p]

theorem loop2_some {b : Board} {o p : Piece} {σ : List Piece → List Piece}
    (hmem : ∀ (l : List Piece) (x : Piece), x ∈ σ l ↔ x ∈ l)
    {fuel : Nat} {vpcBase : Finset Pos}
    (hrec : ∀ (t : Piece) (vp' vpc' : Finset Pos), pieceAt b t.pos = some t →
      t.pos ∉ vpc' → vpcBase ⊆ vpc' →
      (resolveFuelO σ fuel t o b vp' vpc').isSome = true) :
    ∀ (targets : List Piece), (∀ t ∈ targets, t ∈ piecesOnAvailableOf b p) →
    ∀ acc vp vpc, vpcBase ⊆ vpc →
      (loop2 (fun t vp vpc => resolveFuelO σ fuel t o b vp vpc) o p targets
        (acc, vp, vpc)).isSome = true := by
  intro targets
  induction targets with
  | nil => intro _ acc vp vpc _; rw [loop2]; rfl
  | cons t rest ih =>
    intro htargets acc vp vpc hbase
    have htmem : t ∈ piecesOnAvailableOf b p := htargets t (List.mem_cons_self t rest)
    have htrest : ∀ u ∈ rest, u ∈ piecesOnAvailableOf b p :=
      fun u hu => htargets u (List.mem_cons_of_mem t hu)
    rw [loop2]
    by_cases h1 : t.player = p.player
    · rw [if_pos h1]
      by_cases h2 : t.pos ∉ vpc
      · rw [if_pos h2]
        by_cases h3 : t.pos ≠ o.pos
        · rw [if_pos h3]
          have hpt : pieceAt b t.pos = some t := piecesOnAvailableOf_pieceAt htmem
          have hsome := hrec t vp vpc hpt h2 hbase
          cases hr : resolveFuelO σ fuel t o b vp vpc with
          | none => rw [hr] at hsome; cases hsome
          | some child =>
            have hout := resolveFuelO_out σ hmem fuel t vp vpc child hpt h2 hr
            exact ih htrest (acc ∪ child.1) child.2.1 child.2.2
              (fun x hx => hout.vpc_mono (hbase hx))
        · rw [if_neg h3]; exact ih htrest acc vp vpc hbase
      · rw [if_neg h2]; exact ih htrest acc vp vpc hbase
    · rw [if_neg h1]; exact ih htrest (insert t.pos acc) vp vpc hbase

/-- Fuel sufficiency: with more fuel than there are board pieces not yet
visited, the resolver never runs out (the JS recursion always terminates). -/
theorem resolveFuelO_isSome {b : Board} {o : Piece} {σ : List Piece → List Piece}
    (hmem : ∀ (l : List Piece) (x : Piece), x ∈ σ l ↔ x ∈ l) :
    ∀ (fuel : Nat) (p : Piece) (vp vpc : Finset Pos),
      pieceAt b p.pos = some p → p.pos ∉ vpc →
      (boardPositions b \ vpc).card < fuel →
      (resolveFuelO σ fuel p o b vp vpc).isSome = true := by
  intro fuel
  induction fuel with
  | zero => intro p vp vpc _ _ hcard; omega
  | succ fuel ih =>
    intro p vp vpc hp hpnot hcard
    rw [resolveFuelO_succ]
    have hpmem : p.pos ∈ boardPositions b :=
      mem_boardPositions.mpr ⟨p, (pieceAt_some hp).1, rfl⟩
    have hpdiff : p.pos ∈ boardPositions b \ vpc := Finset.mem_sdiff.mpr ⟨hpmem, hpnot⟩
    have hrec : ∀ (t : Piece) (vp' vpc' : Finset Pos), pieceAt b t.pos = some t →
        t.pos ∉ vpc' → insert p.pos vpc ⊆ vpc' →
        (resolveFuelO σ fuel t o b vp' vpc').isSome = true := by
      intro t vp' vpc' ht htnot hsub
      refine ih t vp' vpc' ht htnot ?_
      have hsdiff : boardPositions b \ vpc' ⊆ (boardPositions b \ vpc).erase p.pos := by
        intro x hx
        rw [Finset.mem_erase]
        rw [Finset.mem_sdiff] at hx
        constructor
        · rintro rfl
          exact hx.2 (hsub (Finset.mem_insert_self _ vpc))
        · exact Finset.mem_sdiff.mpr ⟨hx.1, fun hxv =>
            hx.2 (hsub (Finset.mem_insert_of_mem hxv))⟩
      have h1 := Finset.card_le_card hsdiff
      have h2 := Finset.card_erase_of_mem hpdiff
      have h3 : 1 ≤ (boardPositions b \ vpc).card :=
        Finset.card_pos.mpr ⟨p.pos, hpdiff⟩
      omega
    have hsome := loop2_some (p := p) hmem hrec (σ (piecesOnAvailableOf b p))
      (fun t ht => (hmem _ t).mp ht) (occCandidates b p) vp (insert p.pos vpc)
      (fun x hx => hx)
    cases h2 : loop2 (fun t vp vpc => resolveFuelO σ fuel t o b vp vpc) o p
        (σ (piecesOnAvailableOf b p)) (occCandidates b p, vp, insert p.pos vpc) with
    | none => rw [h2] at hsome; cases hsome
    | some st2 =>
      obtain ⟨acc2, vp2, vpc2⟩ := st2
      rfl

theorem isValidPosition_iff {x y : Int} :
    isValidPosition x y = true ↔ 0 ≤ x ∧ x < 7 ∧ 0 ≤ y ∧ y < 8 := by
  unfold isValidPosition boardWidth boardHeight
  simp [Bool.and_eq_true, and_assoc]

theorem rotateDir_neg (dx dy a : Int) :
    rotateDir (-dx) (-dy) a = negPos (rotateDir dx dy a) := by
  unfold rotateDir negPos
  dsimp only
  split_ifs <;> simp

theorem pieceDirs_mirror (t : PieceType) :
    pieceDirs t 2 = (pieceDirs t 1).map negPos := by
  cases t <;> decide

theorem adjustedDirs_player2 (t : PieceType) (rotation : Int) :
    adjustedDirs t 2 rotation = (adjustedDirs t 1 rotation).map negPos := by
  unfold adjustedDirs
  rw [pieceDirs_mirror, List.map_map, List.map_map]
  apply List.map_congr_left
  intro d _
  exact rotateDir_neg d.x d.y _

/-- C8: for every integer offset vector (dx, dy) and every rotation
r in {0, 90, 180, 270}, the rotation transform is the fixed integer lookup
(0: identity; 90: (dx,dy) to (-dy,dx); 180: negate both; 270: (dx,dy) to
(dy,-dx)), and applying it by r and then by (360 - r) mod 360 returns
exactly (dx, dy): the math is integer-only, so there is no floating-point
drift. -/
theorem c8_rotation_roundtrip :
    ∀ dx dy : Int,
      (rotateDir dx dy 0 = ⟨dx, dy⟩ ∧ rotateDir dx dy 90 = ⟨-dy, dx⟩ ∧
       rotateDir dx dy 180 = ⟨-dx, -dy⟩ ∧ rotateDir dx dy 270 = ⟨dy, -dx⟩) ∧
      ∀ r ∈ ([0, 90, 180, 270] : List Int),
        rotateDir (rotateDir dx dy r).x (rotateDir dx dy r).y ((360 - r) % 360) =
          ⟨dx, dy⟩ := by
  intro dx dy
  constructor
  · exact ⟨rfl, rfl, rfl, rfl⟩
  · intro r hr
    rcases List.mem_cons.mp hr with rfl | hr
    · rfl
    rcases List.mem_cons.mp hr with rfl | hr
    · show rotateDir (-dy) dx 270 = _
      unfold rotateDir
      norm_num
    rcases List.mem_cons.mp hr with rfl | hr
    · show rotateDir (-dx) (-dy) 180 = _
      unfold rotateDir
      norm_num
    rcases List.mem_cons.mp hr with rfl | hr
    · show rotateDir dy (-dx) 90 = _
      unfold rotateDir
      norm_num
    simp at hr

/-- C10: for every piece type and every rotation 90 * z (a multiple of
90 degrees), the pre-bounds-filter offset vectors of a player-2 piece are
exactly the pointwise negations of the player-1 offsets of the same type
and rotation, and the rotation transform is linear, so it commutes with
that negation. -/
theorem c10_player_mirror :
    (∀ dx dy a : Int, rotateDir (-dx) (-dy) a = negPos (rotateDir dx dy a)) ∧
    ∀ (t : PieceType) (z : Int),
      adjustedDirs t 2 (90 * z) = (adjustedDirs t 1 (90 * z)).map negPos :=
  ⟨rotateDir_neg, fun t z => adjustedDirs_player2 t (90 * z)⟩

/-- C6: evaluation of the PR (Type A, left-biased) offsets at rotation 0.
game.js yields exactly {left, right+backward}: (-1,0) and (1,1) for
player 1 (promotion row y = 0) and the mirror images (1,0) and (-1,-1)
for player 2, as the claim and the repository README state; the main.js
variant instead computes the second offset with forward, yielding (1,-1)
for player 1 — the divergence that makes this a code bug in main.js. -/
theorem c6_pr_offsets_eval :
    pieceDirs .PR 1 = [⟨-1, 0⟩, ⟨1, 1⟩] ∧
    pieceDirs .PR 2 = [⟨1, 0⟩, ⟨-1, -1⟩] ∧
    adjustedDirs .PR 1 0 = [⟨-1, 0⟩, ⟨1, 1⟩] ∧
    adjustedDirs .PR 2 0 = [⟨1, 0⟩, ⟨-1, -1⟩] ∧
    Mainjs.pieceDirs .PR 1 = [⟨-1, 0⟩, ⟨1, -1⟩] ∧
    Mainjs.pieceDirs .PR 2 = [⟨1, 0⟩, ⟨-1, 1⟩] := by
  refine ⟨rfl, rfl, ?_, ?_, rfl, rfl⟩ <;> decide

/-- C9: every position returned by getAvailableSquares satisfies
0 ≤ x < 7 and 0 ≤ y < 8 (off-board candidate offsets are dropped
silently), and consequently every square in the resolver's accessible set
is on the board, so the grid accesses the resolver performs on candidate
and accessible squares are in range. -/
theorem c9_bounds_safety :
    (∀ (p : Piece), ∀ q ∈ getAvailableSquares p,
      0 ≤ q.x ∧ q.x < 7 ∧ 0 ≤ q.y ∧ q.y < 8) ∧
    ∀ (b : Board) (S : Piece) (fuel : Nat) (acc vp vpc : Finset Pos),
      pieceAt b S.pos = some S →
      getAllAccessibleSquaresForBoard fuel S S b = some (acc, vp, vpc) →
      ∀ k ∈ acc, 0 ≤ k.x ∧ k.x < 7 ∧ 0 ≤ k.y ∧ k.y < 8 := by
  constructor
  · intro p q hq
    exact isValidPosition_iff.mp (mem_getAvailableSquares_valid hq)
  · intro b S fuel acc vp vpc hS hrun k hk
    unfold getAllAccessibleSquaresForBoard at hrun
    rw [resolveFuel_eq_resolveFuelO] at hrun
    have R := resolveFuelO_out (fun l => l) (fun l x => Iff.rfl) fuel S ∅ ∅
      (acc, vp, vpc) hS (Finset.not_mem_empty _) hrun
    rcases R.acc_sound k hk with hk' | ⟨q, _, hk'⟩ | ⟨_, t, _, _, hk'⟩
    · exact isValidPosition_iff.mp (mem_occCandidates.mp hk').2.1
    · exact isValidPosition_iff.mp (mem_occCandidates.mp hk').2.1
    · exact isValidPosition_iff.mp (mem_validCandidates.mp hk').2

theorem c9_bounds_safety_witness :
    ∃ r, getAllAccessibleSquaresForBoard 3 pieceA pieceA boardAB = some r ∧
      ∀ k ∈ r.1, 0 ≤ k.x ∧ k.x < 7 ∧ 0 ≤ k.y ∧ k.y < 8 := by
  obtain ⟨r, hr⟩ : ∃ r, getAllAccessibleSquaresForBoard 3 pieceA pieceA boardAB = some r :=
    ⟨_, rfl⟩
  exact ⟨r, hr, c9_bounds_safety.2 boardAB pieceA 3 r.1 r.2.1 r.2.2 (by decide) hr⟩

/-- C2: for every board and selected piece S, an empty square Z is in the
resolver's accessible set for S if and only if Z is a valid raw candidate
square of some linked friendly piece other than S (reached from S through
the chain of friendly pieces standing on each other's raw candidate
squares); in particular S's own empty raw candidates are never accessible
unless a linked piece also offers them.  The second conjunct is the
minimal 2-piece chain scenario: with friendly B on a raw candidate of A
and the empty square (2,2) a raw candidate of B, (2,2) is accessible from
A even though it is not a raw candidate of A. -/
theorem c2_empty_square_accessibility :
    (∀ (b : Board) (S : Piece) (fuel : Nat) (acc vp vpc : Finset Pos),
      pieceAt b S.pos = some S →
      getAllAccessibleSquaresForBoard fuel S S b = some (acc, vp, vpc) →
      ∀ Z, pieceAt b Z = none →
        (Z ∈ acc ↔ ∃ T, Linked b S T ∧ Z ∈ validCandidates T)) ∧
    (∃ acc vp vpc,
      getAllAccessibleSquaresForBoard 3 pieceA pieceA boardAB = some (acc, vp, vpc) ∧
      (⟨2, 2⟩ : Pos) ∈ acc ∧ (⟨2, 2⟩ : Pos) ∉ validCandidates pieceA ∧
      pieceAt boardAB ⟨2, 2⟩ = none) := by
  constructor
  · intro b S fuel acc vp vpc hS hrun Z hZ
    unfold getAllAccessibleSquaresForBoard at hrun
    rw [resolveFuel_eq_resolveFuelO] at hrun
    have R := resolveFuelO_out (fun l => l) (fun l x => Iff.rfl) fuel S ∅ ∅
      (acc, vp, vpc) hS (Finset.not_mem_empty _) hrun
    have hiff := resolveO_acc_iff hS R Z
    constructor
    · intro hacc
      rcases hiff.mp hacc with ⟨q, _, hq⟩ | ⟨T, hT, hz⟩
      · have := (mem_occCandidates.mp hq).2.2
        rw [hZ] at this
        cases this
      · exact ⟨T, hT, hz⟩
    · rintro ⟨T, hT, hz⟩
      exact hiff.mpr (Or.inr ⟨T, hT, hz⟩)
  · exact ⟨_, _, _, rfl, by decide, by decide, by decide⟩

theorem c2_empty_square_accessibility_witness :
    ∃ r, getAllAccessibleSquaresForBoard 3 pieceA pieceA boardAB = some r ∧
      ((⟨2, 2⟩ : Pos) ∈ r.1 ↔
        ∃ T, Linked boardAB pieceA T ∧ (⟨2, 2⟩ : Pos) ∈ validCandidates T) := by
  obtain ⟨r, hr⟩ : ∃ r, getAllAccessibleSquaresForBoard 3 pieceA pieceA boardAB = some r :=
    ⟨_, rfl⟩
  exact ⟨r, hr, c2_empty_square_accessibility.1 boardAB pieceA 3 r.1 r.2.1 r.2.2
    (by decide) hr ⟨2, 2⟩ (by decide)⟩

/-- C4: for a fixed board and selected piece, the resolver's accessible
set, its visited-piece set and hence that set's size are identical under
any two membership-preserving reorderings of the per-frontier-piece
processing order of the pieces found on candidate squares (two-run
statement over the reorder-generalised resolver; the source order is the
identity reordering by resolveFuel_eq_resolveFuelO). -/
theorem c4_resolver_order_independent :
    ∀ (b : Board) (S : Piece) (σ₁ σ₂ : List Piece → List Piece),
      pieceAt b S.pos = some S →
      (∀ l, List.Perm (σ₁ l) l) → (∀ l, List.Perm (σ₂ l) l) →
      ∀ (fuel₁ fuel₂ : Nat) (r₁ r₂ : Finset Pos × Finset Pos × Finset Pos),
        resolveFuelO σ₁ fuel₁ S S b ∅ ∅ = some r₁ →
        resolveFuelO σ₂ fuel₂ S S b ∅ ∅ = some r₂ →
        r₁.1 = r₂.1 ∧ r₁.2.2 = r₂.2.2 ∧ r₁.2.2.card = r₂.2.2.card := by
  intro b S σ₁ σ₂ hS hp₁ hp₂ fuel₁ fuel₂ r₁ r₂ h₁ h₂
  have R₁ := resolveFuelO_out σ₁ (fun l x => (hp₁ l).mem_iff) fuel₁ S ∅ ∅ r₁ hS
    (Finset.not_mem_empty _) h₁
  have R₂ := resolveFuelO_out σ₂ (fun l x => (hp₂ l).mem_iff) fuel₂ S ∅ ∅ r₂ hS
    (Finset.not_mem_empty _) h₂
  have hacc : r₁.1 = r₂.1 := by
    ext x
    rw [resolveO_acc_iff hS R₁ x, resolveO_acc_iff hS R₂ x]
  have hvpc : r₁.2.2 = r₂.2.2 := by
    ext x
    rw [resolveO_visited_iff hS R₁ x, resolveO_visited_iff hS R₂ x]
  exact ⟨hacc, hvpc, by rw [hvpc]⟩

theorem c4_resolver_order_independent_witness :
    ∃ r₁ r₂, resolveFuelO (fun l => l) 3 pieceA pieceA boardAB ∅ ∅ = some r₁ ∧
      resolveFuelO List.reverse 3 pieceA pieceA boardAB ∅ ∅ = some r₂ ∧
      r₁.1 = r₂.1 ∧ r₁.2.2 = r₂.2.2 ∧ r₁.2.2.card = r₂.2.2.card := by
  obtain ⟨r₁, h₁⟩ : ∃ r, resolveFuelO (fun l => l) 3 pieceA pieceA boardAB ∅ ∅ = some r :=
    ⟨_, rfl⟩
  obtain ⟨r₂, h₂⟩ : ∃ r, resolveFuelO List.reverse 3 pieceA pieceA boardAB ∅ ∅ = some r :=
    ⟨_, rfl⟩
  exact ⟨r₁, r₂, h₁, h₂, c4_resolver_order_independent boardAB pieceA _ _ (by decide)
    (fun l => List.Perm.refl l) (fun l => List.reverse_perm l) 3 3 r₁ r₂ h₁ h₂⟩

/-- C5: on any well-formed board with at most 28 pieces, the resolver
terminates with fuel piece-count + 1 (each piece is recursed into at most
once, only when its position is not yet in the visited-piece set), the
final visited-piece set contains only positions of pieces on the board,
and its size never exceeds the number of pieces. -/
theorem c5_resolver_terminates :
    ∀ (b : Board) (S : Piece), WFBoard b → pieceAt b S.pos = some S →
      b.length ≤ 28 →
      ∃ acc vp vpc,
        getAllAccessibleSquaresForBoard (b.length + 1) S S b = some (acc, vp, vpc) ∧
        vpc ⊆ boardPositions b ∧ vpc.card ≤ b.length := by
  intro b S _ hS _
  unfold getAllAccessibleSquaresForBoard
  rw [resolveFuel_eq_resolveFuelO]
  have hcardP : (boardPositions b).card ≤ b.length := by
    have := (b.map Piece.pos).toFinset_card_le
    simpa [boardPositions] using this
  have hsome := resolveFuelO_isSome (o := S) (σ := fun l => l) (fun l x => Iff.rfl)
    (b.length + 1) S ∅ ∅ hS (Finset.not_mem_empty _)
    (by simpa using Nat.lt_succ_of_le hcardP)
  cases hrun : resolveFuelO (fun l => l) (b.length + 1) S S b ∅ ∅ with
  | none => rw [hrun] at hsome; cases hsome
  | some r =>
    have R := resolveFuelO_out (fun l => l) (fun l x => Iff.rfl) (b.length + 1) S ∅ ∅
      r hS (Finset.not_mem_empty _) hrun
    have hsub : r.2.2 ⊆ boardPositions b := by
      intro x hx
      rcases (resolveO_visited_iff hS R x).mp hx with rfl | ⟨t, ht, rfl⟩
      · exact mem_boardPositions.mpr ⟨S, (pieceAt_some hS).1, rfl⟩
      · exact mem_boardPositions.mpr ⟨t, (pieceAt_some (chain_pieceAt ht)).1, rfl⟩
    exact ⟨r.1, r.2.1, r.2.2, rfl, hsub,
      le_trans (Finset.card_le_card hsub) hcardP⟩

theorem c5_resolver_terminates_witness :
    ∃ acc vp vpc,
      getAllAccessibleSquaresForBoard (boardAB.length + 1) pieceA pieceA boardAB =
        some (acc, vp, vpc) ∧
      vpc ⊆ boardPositions boardAB ∧ vpc.card ≤ boardAB.length :=
  c5_resolver_terminates boardAB pieceA (by decide) (by decide) (by decide)

theorem map_map_id_pres {f : Piece → Piece} (hf : ∀ q, (f q).id = q.id)
    (l : List Piece) : (l.map f).map Piece.id = l.map Piece.id := by
  rw [List.map_map]
  exact List.map_congr_left (fun q _ => hf q)

theorem moveSwapPieces_ids (pieces : List Piece) (sel : Piece) (dest : Pos) :
    (moveSwapPieces pieces sel dest).map Piece.id = pieces.map Piece.id := by
  unfold moveSwapPieces
  cases pieceAt pieces dest with
  | none =>
    refine map_map_id_pres ?_ pieces
    intro q
    by_cases h : q.id = sel.id
    · rw [if_pos h]
    · rw [if_neg h]
  | some tgt =>
    refine map_map_id_pres ?_ pieces
    intro q
    by_cases h : q.id = sel.id
    · rw [if_pos h]
    · rw [if_neg h]
      by_cases h2 : q.id = tgt.id
      · rw [if_pos h2]
      · rw [if_neg h2]

theorem moveSwapPieces_length (pieces : List Piece) (sel : Piece) (dest : Pos) :
    (moveSwapPieces pieces sel dest).length = pieces.length := by
  have h := moveSwapPieces_ids pieces sel dest
  have := congrArg List.length h
  simpa using this

theorem moveSwapPieces_flags (pieces : List Piece) (sel : Piece) (dest : Pos) :
    ∀ q ∈ moveSwapPieces pieces sel dest, ∃ q₀ ∈ pieces,
      q.movedLastTurn = q₀.movedLastTurn ∧ q.rotatedThisTurn = q₀.rotatedThisTurn ∧
      q.player = q₀.player ∧ q.ptype = q₀.ptype ∧ q.id = q₀.id := by
  unfold moveSwapPieces
  cases pieceAt pieces dest with
  | none =>
    intro q hq
    obtain ⟨q₀, hq₀, rfl⟩ := List.mem_map.mp hq
    refine ⟨q₀, hq₀, ?_⟩
    by_cases h : q₀.id = sel.id
    · rw [if_pos h]
      exact ⟨rfl, rfl, rfl, rfl, rfl⟩
    · rw [if_neg h]
      exact ⟨rfl, rfl, rfl, rfl, rfl⟩
  | some tgt =>
    intro q hq
    obtain ⟨q₀, hq₀, rfl⟩ := List.mem_map.mp hq
    refine ⟨q₀, hq₀, ?_⟩
    by_cases h : q₀.id = sel.id
    · rw [if_pos h]
      exact ⟨rfl, rfl, rfl, rfl, rfl⟩
    · rw [if_neg h]
      by_cases h2 : q₀.id = tgt.id
      · rw [if_pos h2]
        exact ⟨rfl, rfl, rfl, rfl, rfl⟩
      · rw [if_neg h2]
        exact ⟨rfl, rfl, rfl, rfl, rfl⟩

theorem applyRotationsGo_ids :
    ∀ (rs : List RotationSpec) (pieces : List Piece) (c : Nat),
      (applyRotationsGo rs pieces c).map Piece.id = pieces.map Piece.id := by
  intro rs
  induction rs with
  | nil => intro pieces c; rfl
  | cons r rest ih =>
    intro pieces c
    rw [applyRotationsGo]
    by_cases hc : c = 0
    · rw [if_pos hc]
    · rw [if_neg hc]
      cases hfind : findById pieces r.id with
      | none =>
        simp only [hfind]
        exact ih pieces c
      | some p =>
        simp only [hfind]
        by_cases hrot : canRotateType p.ptype = true
        · rw [if_pos hrot, ih]
          refine map_map_id_pres ?_ pieces
          intro q
          by_cases h : q.id = r.id
          · rw [if_pos h]
          · rw [if_neg h]
        · rw [if_neg hrot]
          exact ih pieces c

theorem filter_ne_id_length :
    ∀ (l : List Piece) (i : Nat), (l.map Piece.id).Nodup → i ∈ l.map Piece.id →
      (l.filter (fun q => decide (q.id ≠ i))).length + 1 = l.length := by
  intro l
  induction l with
  | nil => intro i _ hmem; simp at hmem
  | cons p rest ih =>
    intro i hnodup hmem
    rw [List.map_cons, List.nodup_cons] at hnodup
    rw [List.map_cons, List.mem_cons] at hmem
    rcases hmem with rfl | hmem
    · rw [List.filter_cons_of_neg (by simp)]
      have hall : rest.filter (fun q => decide (q.id ≠ p.id)) = rest := by
        rw [List.filter_eq_self]
        intro q hq
        simp only [decide_eq_true_eq]
        intro hqe
        exact hnodup.1 (hqe ▸ List.mem_map_of_mem Piece.id hq)
      rw [hall]
      simp
    · have hne : p.id ≠ i := by
        rintro rfl
        exact hnodup.1 hmem
      rw [List.filter_cons_of_pos (by simp [hne])]
      have := ih i hnodup.2 hmem
      simp only [List.length_cons]
      omega

theorem promotionSweep_fst (pieces : List Piece) (s1 s2 : Int) :
    (promotionSweep pieces s1 s2).1 = pieces.filter (fun p => !promotedOnRow p) := by
  induction pieces with
  | nil => rfl
  | cons p rest ih =>
    unfold promotionSweep at ih ⊢
    rw [List.foldr_cons]
    by_cases hp : promotedOnRow p = true
    · rw [if_pos hp, List.filter_cons_of_neg (by simp [hp])]
      exact ih
    · rw [if_neg hp, List.filter_cons_of_pos (by simp [Bool.of_not_eq_true hp])]
      rw [← ih]

theorem promotionSweep_score1 (pieces : List Piece) (s1 s2 : Int) :
    (promotionSweep pieces s1 s2).2.1 =
      s1 + ((pieces.filter (fun p => promotedOnRow p && p.player == 1)).length : Int) := by
  induction pieces with
  | nil => simp [promotionSweep]
  | cons p rest ih =>
    unfold promotionSweep at ih ⊢
    rw [List.foldr_cons]
    by_cases hp : promotedOnRow p = true
    · rw [if_pos hp]
      by_cases h1 : p.player = 1
      · rw [if_pos h1, List.filter_cons_of_pos (by simp [hp, h1])]
        rw [List.length_cons, ih]
        push_cast
        ring
      · rw [if_neg h1, List.filter_cons_of_neg (by simp [h1])]
        exact ih
    · rw [if_neg hp, List.filter_cons_of_neg (by simp [hp])]
      exact ih

theorem promotionSweep_score2 (pieces : List Piece) (s1 s2 : Int) :
    (promotionSweep pieces s1 s2).2.2 =
      s2 + ((pieces.filter (fun p => promotedOnRow p && p.player == 2)).length : Int) := by
  induction pieces with
  | nil => simp [promotionSweep]
  | cons p rest ih =>
    unfold promotionSweep at ih ⊢
    rw [List.foldr_cons]
    by_cases hp : promotedOnRow p = true
    · rw [if_pos hp]
      by_cases h2 : p.player = 2
      · rw [if_pos h2, List.filter_cons_of_pos (by simp [hp, h2])]
        rw [List.length_cons, ih]
        push_cast
        ring
      · rw [if_neg h2, List.filter_cons_of_neg (by simp [h2])]
        exact ih
    · rw [if_neg hp, List.filter_cons_of_neg (by simp [hp])]
      exact ih

/-- C3 counterexample: on a well-formed two-piece board, player 1's DP
legally swaps with the friendly PR on its candidate square (the
destination is in the resolver's accessible set), landing the promotable
PR on (3,0) — player 1's promotion row, the opponent's back row — yet
applyAction removes no piece and increments no score, because the
promotion check reads only the moved piece (the DP).  This refutes the
claim that every committed move/swap landing a promotable piece on the
opponent's back row removes exactly one piece and increments exactly one
score by exactly 1 in the same call. -/
theorem c3_promotion_counterexample :
    WFBoard promoState.pieces ∧
    (∃ r, getAllAccessibleSquaresForBoard 3 promoSel promoSel promoState.pieces = some r ∧
      promoAction.move.dest ∈ r.1) ∧
    pieceAt promoState.pieces promoAction.move.dest = some promoPawn ∧
    isPawnType promoPawn.ptype = true ∧
    (applyAction promoState promoAction).pieces.length = promoState.pieces.length ∧
    (∃ q ∈ (applyAction promoState promoAction).pieces,
      q.id = promoPawn.id ∧ q.pos = ⟨3, 0⟩ ∧ q.pos.y = promoRow q.player ∧
      isPawnType q.ptype = true) ∧
    (applyAction promoState promoAction).score1 = 0 ∧
    (applyAction promoState promoAction).score2 = 0 := by
  refine ⟨by decide, ⟨_, rfl, by decide⟩, by decide, by decide, by decide, by decide,
    by decide, by decide⟩

/-- C3 amended: in the bot's applyAction only the moved piece is checked
for promotion — whenever the moved piece is promotable (PR/PL) and lands
on its owner's promotion row, exactly one piece is removed and exactly
the owner's score incremented by exactly 1 in the same call; a promotable
swap partner landing on its own back row is not removed there (see the
counterexample).  In the live update() path, the sweep removes every
PR/PL standing on its promotion row and increments its owner's score once
per removed piece — so exactly one piece and one score exactly when the
moved piece is the only such piece. -/
theorem c3_promotion_amended :
    (∀ (state : GameState) (action : BotAction) (sel : Piece),
      (state.pieces.map Piece.id).Nodup →
      findById (applyRotationsGo action.rotations state.pieces 2) action.move.id =
        some sel →
      isPawnType sel.ptype = true →
      action.move.dest.y = promoRow sel.player →
      (applyAction state action).pieces.length + 1 = state.pieces.length ∧
      (sel.player = 1 →
        (applyAction state action).score1 = state.score1 + 1 ∧
        (applyAction state action).score2 = state.score2) ∧
      (sel.player = 2 →
        (applyAction state action).score2 = state.score2 + 1 ∧
        (applyAction state action).score1 = state.score1)) ∧
    (∀ (pieces : List Piece) (s1 s2 : Int),
      (promotionSweep pieces s1 s2).1 = pieces.filter (fun p => !promotedOnRow p) ∧
      (promotionSweep pieces s1 s2).2.1 =
        s1 + ((pieces.filter (fun p => promotedOnRow p && p.player == 1)).length : Int) ∧
      (promotionSweep pieces s1 s2).2.2 =
        s2 + ((pieces.filter (fun p => promotedOnRow p && p.player == 2)).length : Int)) := by
  constructor
  · intro state action sel hnodup hfind hpawn hdest
    have hpromoted : (isPawnType sel.ptype && action.move.dest.y == promoRow sel.player) =
        true := by
      rw [hpawn, hdest]
      simp
    have hids0 : (applyRotationsGo action.rotations state.pieces 2).map Piece.id =
        state.pieces.map Piece.id := applyRotationsGo_ids action.rotations state.pieces 2
    have hids1 : (moveSwapPieces (applyRotationsGo action.rotations state.pieces 2) sel
        action.move.dest).map Piece.id = state.pieces.map Piece.id := by
      rw [moveSwapPieces_ids, hids0]
    have hselmem : sel ∈ applyRotationsGo action.rotations state.pieces 2 :=
      List.mem_of_find?_eq_some hfind
    have hidmem : sel.id ∈ (moveSwapPieces (applyRotationsGo action.rotations state.pieces 2)
        sel action.move.dest).map Piece.id := by
      rw [hids1, ← hids0]
      exact List.mem_map_of_mem Piece.id hselmem
    have hlen := filter_ne_id_length
      (moveSwapPieces (applyRotationsGo action.rotations state.pieces 2) sel action.move.dest)
      sel.id (by rw [hids1]; exact hnodup) hidmem
    have hlen1 : (moveSwapPieces (applyRotationsGo action.rotations state.pieces 2) sel
        action.move.dest).length = state.pieces.length := by
      have := congrArg List.length hids1
      simpa using this
    unfold applyAction
    simp only [hfind, hpromoted, if_true, Bool.true_and]
    refine ⟨?_, ?_, ?_⟩
    · simp only [List.length_map]
      omega
    · intro h1
      simp [h1]
    · intro h2
      have h1 : sel.player ≠ 1 := by omega
      simp [h1, h2]
  · intro pieces s1 s2
    exact ⟨promotionSweep_fst pieces s1 s2, promotionSweep_score1 pieces s1 s2,
      promotionSweep_score2 pieces s1 s2⟩

theorem c3_promotion_amended_witness :
    (applyAction amendState amendAction).pieces.length + 1 = amendState.pieces.length ∧
    (applyAction amendState amendAction).score1 = amendState.score1 + 1 ∧
    (applyAction amendState amendAction).score2 = amendState.score2 := by
  have h := c3_promotion_amended.1 amendState amendAction amendSel (by decide) (by decide)
    (by decide) (by decide)
  exact ⟨h.1, (h.2.1 (by decide)).1, (h.2.1 (by decide)).2⟩

/-- C7 counterexample: on a well-formed board, player 1's DP completes a
legal relocation to the empty highlighted square (1,3) (the destination
is in the resolver's accessible set and empty), yet after the commit the
moved piece's movedLastTurn flag is still false — the game.js commit path
never sets it — refuting the claim that the moved piece is marked
blocked-from-selection. -/
theorem c7_moved_flag_counterexample :
    WFBoard moveState.pieces ∧
    (∃ r, getAllAccessibleSquaresForBoard 3 moveSel moveSel moveState.pieces = some r ∧
      (⟨1, 3⟩ : Pos) ∈ r.1) ∧
    pieceAt moveState.pieces ⟨1, 3⟩ = none ∧
    (∃ q ∈ (commitMoveOrSwap moveState moveSel ⟨1, 3⟩).pieces,
      q.id = moveSel.id ∧ q.pos = ⟨1, 3⟩ ∧ q.movedLastTurn = false) ∧
    (commitMoveOrSwap moveState moveSel ⟨1, 3⟩).currentPlayer = 2 := by
  exact ⟨by decide, ⟨_, rfl, by decide⟩, by decide, by decide, by decide⟩

/-- C7 amended: the game.js commit path never sets movedLastTurn — if no
piece has it set before a completed moveOrSwap, none has it afterwards
(endTurn clears every such flag anyway) — and the moved piece is
nevertheless unselectable afterwards because the turn passes to the
opponent: every piece of the mover fails canBeSelected against the new
current player whenever the commit did not end the game. -/
theorem c7_moved_flag_amended :
    ∀ (state : GameState) (sel : Piece) (dest : Pos),
      (∀ p ∈ state.pieces, p.movedLastTurn = false) →
      (∀ p ∈ (commitMoveOrSwap state sel dest).pieces, p.movedLastTurn = false) ∧
      ((commitMoveOrSwap state sel dest).gameOver = false →
        (commitMoveOrSwap state sel dest).currentPlayer = otherPlayer state.currentPlayer ∧
        ∀ p ∈ (commitMoveOrSwap state sel dest).pieces, p.player = state.currentPlayer →
          canBeSelected p ((commitMoveOrSwap state sel dest).currentPlayer) = false) := by
  intro state sel dest hflags
  have hflags1 : ∀ q ∈ moveSwapPieces state.pieces sel dest, q.movedLastTurn = false := by
    intro q hq
    obtain ⟨q₀, hq₀, hmoved, _⟩ := moveSwapPieces_flags state.pieces sel dest q hq
    rw [hmoved]
    exact hflags q₀ hq₀
  have hswept : ∀ q ∈ (promotionSweep (moveSwapPieces state.pieces sel dest)
      state.score1 state.score2).1, q.movedLastTurn = false := by
    intro q hq
    rw [promotionSweep_fst] at hq
    exact hflags1 q (List.mem_filter.mp hq).1
  unfold commitMoveOrSwap
  by_cases hwin : (promotionSweep (moveSwapPieces state.pieces sel dest)
      state.score1 state.score2).2.1 ≥ 6 ∨
      (promotionSweep (moveSwapPieces state.pieces sel dest)
        state.score1 state.score2).2.2 ≥ 6
  · rw [if_pos hwin]
    refine ⟨hswept, ?_⟩
    intro hgo
    cases hgo
  · rw [if_neg hwin]
    constructor
    · intro p hp
      unfold endTurnStep at hp
      simp only [List.mem_map] at hp
      obtain ⟨q₀, _, rfl⟩ := hp
      by_cases h : q₀.player = otherPlayer state.currentPlayer
      · rw [if_pos h]
      · rw [if_neg h]
    · intro _
      refine ⟨rfl, ?_⟩
      intro p hp hpl
      unfold endTurnStep at hp
      simp only [List.mem_map] at hp
      obtain ⟨q₀, _, rfl⟩ := hp
      have hne : state.currentPlayer ≠ otherPlayer state.currentPlayer := by
        unfold otherPlayer
        by_cases h1 : state.currentPlayer = 1
        · rw [if_pos h1, h1]
          omega
        · rw [if_neg h1]
          omega
      by_cases h : q₀.player = otherPlayer state.currentPlayer
      · rw [if_pos h] at hpl ⊢
        simp only at hpl
        exact absurd (hpl ▸ h) hne
      · rw [if_neg h] at hpl ⊢
        simp only at hpl
        show canBeSelected _ (otherPlayer state.currentPlayer) = false
        have hb : (q₀.player == otherPlayer state.currentPlayer) = false := by
          simp [h]
        unfold canBeSelected
        simp [hb]

theorem c7_moved_flag_amended_witness :
    (∀ p ∈ (commitMoveOrSwap moveState moveSel ⟨1, 3⟩).pieces,
      p.movedLastTurn = false) ∧
    ((commitMoveOrSwap moveState moveSel ⟨1, 3⟩).gameOver = false →
      (commitMoveOrSwap moveState moveSel ⟨1, 3⟩).currentPlayer =
        otherPlayer moveState.currentPlayer ∧
      ∀ p ∈ (commitMoveOrSwap moveState moveSel ⟨1, 3⟩).pieces,
        p.player = moveState.currentPlayer →
        canBeSelected p ((commitMoveOrSwap moveState moveSel ⟨1, 3⟩).currentPlayer) =
          false) :=
  c7_moved_flag_amended moveState moveSel ⟨1, 3⟩ (by decide)

theorem c8_rotation_roundtrip_witness :
    rotateDir (rotateDir 3 5 90).x (rotateDir 3 5 90).y ((360 - 90) % 360) = ⟨3, 5⟩ :=
  (c8_rotation_roundtrip 3 5).2 90 (by decide)

theorem bfsExpand_queue_sub (pos : Pos) (path : List Pos) :
    ∀ (l : List Piece) (queue : List (Pos × List Pos)) (visited : Finset Pos),
      ∀ e ∈ queue, e ∈ (bfsExpand pos path l queue visited).1 := by
  intro l
  induction l with
  | nil => intro queue visited e he; exact he
  | cons p rest ih =>
    intro queue visited e he
    rw [bfsExpand]
    by_cases hc : pos ∈ getAvailableSquares p ∧ p.pos ∉ visited
    · rw [if_pos hc]
      exact ih _ _ e (List.mem_append_left _ he)
    · rw [if_neg hc]
      exact ih _ _ e he

theorem bfsExpand_mem (pos : Pos) (path : List Pos) :
    ∀ (l : List Piece) (queue : List (Pos × List Pos)) (visited : Finset Pos),
      ∀ e ∈ (bfsExpand pos path l queue visited).1,
        e ∈ queue ∨ ∃ p ∈ l, pos ∈ getAvailableSquares p ∧
          e = (p.pos, path ++ [p.pos]) := by
  intro l
  induction l with
  | nil => intro queue visited e he; exact Or.inl he
  | cons p rest ih =>
    intro queue visited e he
    rw [bfsExpand] at he
    by_cases hc : pos ∈ getAvailableSquares p ∧ p.pos ∉ visited
    · rw [if_pos hc] at he
      rcases ih _ _ e he with he' | ⟨p', hp', havail, rfl⟩
      · rcases List.mem_append.mp he' with he'' | he''
        · exact Or.inl he''
        · rcases List.mem_singleton.mp he'' with rfl
          exact Or.inr ⟨p, List.mem_cons_self p rest, hc.1, rfl⟩
      · exact Or.inr ⟨p', List.mem_cons_of_mem p hp', havail, rfl⟩
    · rw [if_neg hc] at he
      rcases ih _ _ e he with he' | ⟨p', hp', havail, rfl⟩
      · exact Or.inl he'
      · exact Or.inr ⟨p', List.mem_cons_of_mem p hp', havail, rfl⟩

theorem bfsExpand_visited_mono (pos : Pos) (path : List Pos) :
    ∀ (l : List Piece) (queue : List (Pos × List Pos)) (visited : Finset Pos),
      visited ⊆ (bfsExpand pos path l queue visited).2 := by
  intro l
  induction l with
  | nil => intro queue visited; exact fun x hx => hx
  | cons p rest ih =>
    intro queue visited
    rw [bfsExpand]
    by_cases hc : pos ∈ getAvailableSquares p ∧ p.pos ∉ visited
    · rw [if_pos hc]
      exact fun x hx => ih _ _ (Finset.mem_insert_of_mem hx)
    · rw [if_neg hc]
      exact ih _ _

theorem bfsExpand_closes (pos : Pos) (path : List Pos) :
    ∀ (l : List Piece) (queue : List (Pos × List Pos)) (visited : Finset Pos),
      ∀ p ∈ l, pos ∈ getAvailableSquares p →
        p.pos ∈ (bfsExpand pos path l queue visited).2 := by
  intro l
  induction l with
  | nil => intro queue visited p hp; cases hp
  | cons q rest ih =>
    intro queue visited p hp havail
    rw [bfsExpand]
    rcases List.mem_cons.mp hp with rfl | hp'
    · by_cases hc : pos ∈ getAvailableSquares p ∧ p.pos ∉ visited
      · rw [if_pos hc]
        exact bfsExpand_visited_mono pos path rest _ _ (Finset.mem_insert_self p.pos visited)
      · rw [if_neg hc]
        have hv : p.pos ∈ visited := by
          by_contra hnv
          exact hc ⟨havail, hnv⟩
        exact bfsExpand_visited_mono pos path rest _ _ hv
    · by_cases hc : pos ∈ getAvailableSquares q ∧ q.pos ∉ visited
      · rw [if_pos hc]
        exact ih _ _ p hp' havail
      · rw [if_neg hc]
        exact ih _ _ p hp' havail

theorem bfsExpand_visited_entries (pos : Pos) (path : List Pos) :
    ∀ (l : List Piece) (queue : List (Pos × List Pos)) (visited : Finset Pos),
      ∀ x ∈ (bfsExpand pos path l queue visited).2,
        x ∈ visited ∨ ∃ e ∈ (bfsExpand pos path l queue visited).1, e.1 = x := by
  intro l
  induction l with
  | nil => intro queue visited x hx; exact Or.inl hx
  | cons p rest ih =>
    intro queue visited x hx
    rw [bfsExpand] at hx ⊢
    by_cases hc : pos ∈ getAvailableSquares p ∧ p.pos ∉ visited
    · rw [if_pos hc] at hx ⊢
      rcases ih _ _ x hx with hx' | hx'
      · rcases Finset.mem_insert.mp hx' with rfl | hx''
        · refine Or.inr ⟨(p.pos, path ++ [p.pos]), ?_, rfl⟩
          exact bfsExpand_queue_sub pos path rest _ _ _
            (List.mem_append_right _ (List.mem_singleton.mpr rfl))
        · exact Or.inl hx''
      · exact Or.inr hx'
    · rw [if_neg hc] at hx ⊢
      exact ih _ _ x hx

theorem bfsExpand_measure (pos : Pos) (path : List Pos) (U : Finset Pos) :
    ∀ (l : List Piece) (queue : List (Pos × List Pos)) (visited : Finset Pos),
      (∀ p ∈ l, p.pos ∈ U) →
      (bfsExpand pos path l queue visited).1.length +
          (U \ (bfsExpand pos path l queue visited).2).card ≤
        queue.length + (U \ visited).card := by
  intro l
  induction l with
  | nil => intro queue visited _; exact le_refl _
  | cons p rest ih =>
    intro queue visited hU
    rw [bfsExpand]
    by_cases hc : pos ∈ getAvailableSquares p ∧ p.pos ∉ visited
    · rw [if_pos hc]
      have h := ih (queue ++ [(p.pos, path ++ [p.pos])]) (insert p.pos visited)
        (fun q hq => hU q (List.mem_cons_of_mem p hq))
      have hlen : (queue ++ [(p.pos, path ++ [p.pos])]).length = queue.length + 1 := by
        simp
      have hcard : (U \ insert p.pos visited).card + 1 = (U \ visited).card := by
        have hsub : U \ insert p.pos visited = (U \ visited).erase p.pos := by
          ext x
          simp only [Finset.mem_sdiff, Finset.mem_insert, Finset.mem_erase, not_or]
          tauto
        rw [hsub]
        have hmem : p.pos ∈ U \ visited :=
          Finset.mem_sdiff.mpr ⟨hU p (List.mem_cons_self p rest), hc.2⟩
        have := Finset.card_erase_of_mem hmem
        have hpos : 1 ≤ (U \ visited).card := Finset.card_pos.mpr ⟨p.pos, hmem⟩
        omega
      omega
    · rw [if_neg hc]
      exact ih queue visited (fun q hq => hU q (List.mem_cons_of_mem p hq))

theorem bfsLoop_nil (S : Piece) (A F : List Piece) (fuel : Nat) (visited : Finset Pos) :
    bfsLoop S A F fuel [] visited = some none := by
  cases fuel <;> rfl

theorem bfsLoop_cons (S : Piece) (A F : List Piece) (fuel : Nat) (pos : Pos)
    (path : List Pos) (rest : List (Pos × List Pos)) (visited : Finset Pos) :
    bfsLoop S A F (fuel + 1) ((pos, path) :: rest) visited =
      if pos = S.pos then some (some path.reverse)
      else
        bfsLoop S A F fuel
          (bfsExpand pos path (if path.length = 1 then F else A) rest visited).1
          (bfsExpand pos path (if path.length = 1 then F else A) rest visited).2 := rfl

theorem closedAtP_mono {F A : List Piece} {D : Pos} {visited visited' : Finset Pos}
    {x : Pos} (hsub : visited ⊆ visited') :
    ClosedAtP F A D visited x → ClosedAtP F A D visited' x := by
  rintro (⟨rfl, h⟩ | h)
  · exact Or.inl ⟨rfl, fun p hp ha => hsub (h p hp ha)⟩
  · exact Or.inr (fun p hp ha => hsub (h p hp ha))

theorem bfsLoop_ne_none (S : Piece) (A F : List Piece) (U : Finset Pos)
    (hAU : ∀ p ∈ A, p.pos ∈ U) (hFU : ∀ p ∈ F, p.pos ∈ U) :
    ∀ (fuel : Nat) (queue : List (Pos × List Pos)) (visited : Finset Pos),
      queue.length + (U \ visited).card < fuel →
      bfsLoop S A F fuel queue visited ≠ none := by
  intro fuel
  induction fuel with
  | zero => intro queue visited h; omega
  | succ fuel ih =>
    intro queue visited h
    cases queue with
    | nil => rw [bfsLoop_nil]; simp
    | cons e rest =>
      obtain ⟨pos, path⟩ := e
      rw [bfsLoop_cons]
      by_cases hpos : pos = S.pos
      · rw [if_pos hpos]; simp
      · rw [if_neg hpos]
        have hconsU : ∀ p ∈ (if path.length = 1 then F else A), p.pos ∈ U := by
          by_cases hl : path.length = 1
          · rw [if_pos hl]; exact hFU
          · rw [if_neg hl]; exact hAU
        have hm := bfsExpand_measure pos path U (if path.length = 1 then F else A)
          rest visited hconsU
        apply ih
        simp only [List.length_cons] at h
        omega

theorem bfsBase_contra (S : Piece) (D : Pos) (destEmpty : Bool) (A F : List Piece)
    (hFA : ∀ p ∈ F, p ∈ A) (hFeq : destEmpty = false → F = A)
    (p₀ : Piece) (hp₀F : p₀ ∈ F) (hp₀D : D ∈ getAvailableSquares p₀)
    (hrtg : Relation.ReflTransGen (pathEdge A destEmpty D) p₀.pos S.pos)
    (visited : Finset Pos) (hD : D ∈ visited) (hSnot : S.pos ∉ visited)
    (hclosed : ∀ x ∈ visited, ClosedAtP F A D visited x) : False := by
  have h0 : p₀.pos ∈ visited := by
    rcases hclosed D hD with ⟨_, hF⟩ | hA'
    · exact hF p₀ hp₀F hp₀D
    · exact hA' p₀ (hFA p₀ hp₀F) hp₀D
  have hmain : ∀ x, Relation.ReflTransGen (pathEdge A destEmpty D) x S.pos →
      x ∈ visited → S.pos ∈ visited := by
    intro x hx
    induction hx using Relation.ReflTransGen.head_induction_on with
    | refl => exact fun h => h
    | head hstep _ ih =>
      intro hxv
      obtain ⟨⟨p, hpA, rfl, hxa⟩, hcond⟩ := hstep
      have hy : p.pos ∈ visited := by
        rcases hclosed _ hxv with ⟨hxD, hFc⟩ | hAc
        · cases hde : destEmpty with
          | true => exact absurd hxD (hcond hde)
          | false =>
            rw [hFeq hde] at hFc
            exact hFc p hpA hxa
        · exact hAc p hpA hxa
      exact ih hy
  exact hSnot (hmain p₀.pos hrtg h0)

theorem bfsLoop_no_null (S : Piece) (D : Pos) (destEmpty : Bool) (A F : List Piece)
    (hFA : ∀ p ∈ F, p ∈ A) (hFeq : destEmpty = false → F = A)
    (p₀ : Piece) (hp₀F : p₀ ∈ F) (hp₀D : D ∈ getAvailableSquares p₀)
    (hrtg : Relation.ReflTransGen (pathEdge A destEmpty D) p₀.pos S.pos) :
    ∀ (fuel : Nat) (queue : List (Pos × List Pos)) (visited : Finset Pos),
      D ∈ visited →
      (S.pos ∈ visited → ∃ e ∈ queue, e.1 = S.pos) →
      (∀ e ∈ queue, e.2 ≠ [] ∧ (e.2.length = 1 → e.1 = D)) →
      (∀ x ∈ visited, (∃ e ∈ queue, e.1 = x) ∨ ClosedAtP F A D visited x) →
      bfsLoop S A F fuel queue visited ≠ some none := by
  intro fuel
  induction fuel with
  | zero =>
    intro queue visited hD hSe hlite hcl
    cases queue with
    | nil =>
      rw [bfsLoop_nil]
      intro _
      have hSnot : S.pos ∉ visited := by
        intro hS
        obtain ⟨e, he, _⟩ := hSe hS
        exact absurd he (List.not_mem_nil e)
      have hclosed : ∀ x ∈ visited, ClosedAtP F A D visited x := by
        intro x hx
        rcases hcl x hx with ⟨e, he, _⟩ | h
        · exact absurd he (List.not_mem_nil e)
        · exact h
      exact bfsBase_contra S D destEmpty A F hFA hFeq p₀ hp₀F hp₀D hrtg
        visited hD hSnot hclosed
    | cons e rest =>
      intro heq
      cases heq
  | succ fuel ih =>
    intro queue visited hD hSe hlite hcl
    cases queue with
    | nil =>
      rw [bfsLoop_nil]
      intro _
      have hSnot : S.pos ∉ visited := by
        intro hS
        obtain ⟨e, he, _⟩ := hSe hS
        exact absurd he (List.not_mem_nil e)
      have hclosed : ∀ x ∈ visited, ClosedAtP F A D visited x := by
        intro x hx
        rcases hcl x hx with ⟨e, he, _⟩ | h
        · exact absurd he (List.not_mem_nil e)
        · exact h
      exact bfsBase_contra S D destEmpty A F hFA hFeq p₀ hp₀F hp₀D hrtg
        visited hD hSnot hclosed
    | cons e rest =>
      obtain ⟨pos, path⟩ := e
      rw [bfsLoop_cons]
      by_cases hpos : pos = S.pos
      · rw [if_pos hpos]
        intro heq
        cases heq
      · rw [if_neg hpos]
        have hhead := hlite (pos, path) (List.mem_cons_self _ _)
        have hsub := bfsExpand_visited_mono pos path
          (if path.length = 1 then F else A) rest visited
        have hrestsub := bfsExpand_queue_sub pos path
          (if path.length = 1 then F else A) rest visited
        apply ih
        · exact hsub hD
        · intro hS
          rcases bfsExpand_visited_entries pos path _ rest visited S.pos hS with hS' | hS'
          · obtain ⟨e, he, hepos⟩ := hSe hS'
            rcases List.mem_cons.mp he with rfl | he'
            · exact absurd hepos hpos
            · exact ⟨e, hrestsub e he', hepos⟩
          · exact hS'
        · intro e he
          rcases bfsExpand_mem pos path _ rest visited e he with he' | ⟨p, hp, havail, rfl⟩
          · exact hlite e (List.mem_cons_of_mem _ he')
          · constructor
            · simp
            · intro hlen
              exfalso
              rw [List.length_append, List.length_singleton] at hlen
              have := hhead.1
              cases hpath : path with
              | nil => exact this hpath
              | cons a t => rw [hpath] at hlen; simp at hlen
        · intro x hx
          rcases bfsExpand_visited_entries pos path _ rest visited x hx with hx' | hx'
          · rcases hcl x hx' with ⟨e, he, hepos⟩ | hclx
            · rcases List.mem_cons.mp he with heq | he'
              · right
                have hxpos : pos = x := by rw [← hepos, heq]
                subst hxpos
                by_cases hl : path.length = 1
                · have hD' : pos = D := hhead.2 hl
                  refine Or.inl ⟨hD', ?_⟩
                  intro p hp ha
                  rw [if_pos hl]
                  exact bfsExpand_closes pos path F rest visited p hp ha
                · refine Or.inr ?_
                  intro p hp ha
                  rw [if_neg hl]
                  exact bfsExpand_closes pos path A rest visited p hp ha
              · exact Or.inl ⟨e, hrestsub e he', hepos⟩
            · exact Or.inr (closedAtP_mono hsub hclx)
          · exact Or.inl hx'

theorem bfsLoop_sound (b : Board) (S : Piece) (D : Pos) (destEmpty : Bool)
    (A F : List Piece)
    (hA : ∀ p ∈ A, pieceAt b p.pos = some p)
    (hFS : destEmpty = true → ∀ p ∈ F, p.pos ≠ S.pos)
    (hFA : ∀ p ∈ F, p ∈ A) :
    ∀ (fuel : Nat) (queue : List (Pos × List Pos)) (visited : Finset Pos)
      (out : List Pos),
      (∀ e ∈ queue, PathEntryInv b S D destEmpty e) →
      bfsLoop S A F fuel queue visited = some (some out) →
      ∃ stored : List Pos, out = stored.reverse ∧ stored ≠ [] ∧
        stored.head? = some D ∧ stored.getLast? = some S.pos ∧
        List.Chain' (hopStep b) stored ∧
        (destEmpty = true → ∀ y, stored[1]? = some y → y ≠ S.pos) := by
  intro fuel
  induction fuel with
  | zero =>
    intro queue visited out hinv heq
    cases queue with
    | nil => rw [bfsLoop_nil] at heq; simp at heq
    | cons e rest => cases heq
  | succ fuel ih =>
    intro queue visited out hinv heq
    cases queue with
    | nil => rw [bfsLoop_nil] at heq; simp at heq
    | cons e rest =>
      obtain ⟨pos, path⟩ := e
      rw [bfsLoop_cons] at heq
      by_cases hpos : pos = S.pos
      · rw [if_pos hpos] at heq
        have hout : path.reverse = out :=
          Option.some.inj (Option.some.inj heq)
        obtain ⟨hne, hhd, hlast, hchain, hsecond, _⟩ :=
          hinv (pos, path) (List.mem_cons_self _ _)
        refine ⟨path, hout.symm, hne, hhd, ?_, hchain, hsecond⟩
        rw [hlast, hpos]
      · rw [if_neg hpos] at heq
        apply ih _ _ out ?_ heq
        intro e he
        rcases bfsExpand_mem pos path _ rest visited e he with he' | ⟨p, hp, havail, rfl⟩
        · exact hinv e (List.mem_cons_of_mem _ he')
        · obtain ⟨hne, hhd, hlast, hchain, hsecond, hlen1⟩ :=
            hinv (pos, path) (List.mem_cons_self _ _)
          have hpA : p ∈ A := by
            by_cases hl : path.length = 1
            · rw [if_pos hl] at hp; exact hFA p hp
            · rw [if_neg hl] at hp; exact hp
          cases hpath : path with
          | nil => exact absurd hpath hne
          | cons a t =>
            subst hpath
            have hhd' : (a :: t).head? = some D := hhd
            have hlast' : (a :: t).getLast? = some pos := hlast
            have hchain' : List.Chain' (hopStep b) (a :: t) := hchain
            have hsecond' : destEmpty = true →
                ∀ y, (a :: t)[1]? = some y → y ≠ S.pos := hsecond
            refine ⟨by simp, ?_, ?_, ?_, ?_, ?_⟩
            · simp only [List.cons_append, List.head?_cons] at hhd' ⊢
              exact hhd'
            · show ((a :: t) ++ [p.pos]).getLast? = some p.pos
              exact List.getLast?_concat _
            · show List.Chain' (hopStep b) ((a :: t) ++ [p.pos])
              rw [List.chain'_append]
              refine ⟨hchain', List.chain'_singleton _, ?_⟩
              intro x hx y hy
              simp only [List.head?_cons, Option.mem_def, Option.some.injEq] at hy
              subst hy
              have hxpos : x = pos := by
                simp only [Option.mem_def] at hx
                rw [hlast'] at hx
                exact (Option.some.inj hx).symm
              subst hxpos
              exact ⟨p, hA p hpA, havail⟩
            · intro hde y hy
              cases t with
              | nil =>
                have hyp : y = p.pos := by
                  simp only [List.cons_append, List.nil_append,
                    List.getElem?_cons_succ, List.getElem?_cons_zero,
                    Option.some.injEq] at hy
                  exact hy.symm
                subst hyp
                have hl : (a :: ([] : List Pos)).length = 1 := by simp
                rw [if_pos hl] at hp
                exact hFS hde p hp
              | cons c t2 =>
                have hyc : y = c := by
                  simp only [List.cons_append, List.getElem?_cons_succ,
                    List.getElem?_cons_zero, Option.some.injEq] at hy
                  exact hy.symm
                rw [hyc]
                exact hsecond' hde c (by simp)
            · intro hlen
              exfalso
              simp only [List.cons_append, List.length_cons, List.length_append] at hlen
              omega

theorem linked_rtg {b : Board} {S : Piece} {A : List Piece} {destEmpty : Bool} {D : Pos}
    (hSA : S ∈ A) (hlinkA : ∀ t, Linked b S t → t ∈ A)
    (hDnone : destEmpty = true → pieceAt b D = none) :
    ∀ t, Linked b S t →
      Relation.ReflTransGen (pathEdge A destEmpty D) t.pos S.pos := by
  intro t h
  induction h with
  | single h =>
    refine Relation.ReflTransGen.single ⟨⟨S, hSA, rfl, ?_⟩, ?_⟩
    · exact (mem_validCandidates.mp
        (piecesOnAvailableOf_pos_mem_validCandidates h.1)).1
    · intro hde heq
      have hme := piecesOnAvailableOf_pieceAt h.1
      rw [heq, hDnone hde] at hme
      exact Option.noConfusion hme
  | tail hc he ih =>
    refine Relation.ReflTransGen.head ⟨⟨_, hlinkA _ hc, rfl, ?_⟩, ?_⟩ ih
    · exact (mem_validCandidates.mp
        (piecesOnAvailableOf_pos_mem_validCandidates he.1)).1
    · intro hde heq
      have hme := piecesOnAvailableOf_pieceAt he.1
      rw [heq, hDnone hde] at hme
      exact Option.noConfusion hme

/-- C1: for every well-formed board, selected piece S standing on it, and
destination square D in the accessible set computed by the resolver for S
(at the always-sufficient fuel), findMovementPathForBoard returns a
non-empty sequence of board positions whose first element is S's square
and whose last element is D, in which, read in the reversed [D, ..., S]
order, every consecutive pair (X, Y) has X among the raw candidate
squares of the piece standing at Y, and whose first hop excludes S itself
when D is empty; in particular the search never reports the null result
for such a D, i.e. null is returned only when D is not accessible. -/
theorem c1_pathfinder_correct (b : Board) (S : Piece) (D : Pos)
    (acc vp vpc : Finset Pos)
    (hWF : WFBoard b) (hS : pieceAt b S.pos = some S)
    (hrun : getAllAccessibleSquaresForBoard (b.length + 1) S S b = some (acc, vp, vpc))
    (hD : D ∈ acc) :
    ∃ path : List Pos,
      findMovementPathForBoard (b.length + 1) (b.length + 2) S D b =
        some (some path) ∧ PathOk b S D path := by
  have hrun' : resolveFuelO (fun l => l) (b.length + 1) S S b ∅ ∅ =
      some (acc, vp, vpc) := by
    rw [← resolveFuel_eq_resolveFuelO]
    exact hrun
  have R : ResolveOut b S S ∅ ∅ (acc, vp, vpc) :=
    resolveFuelO_out (fun l => l) (fun _ _ => Iff.rfl) (b.length + 1) S ∅ ∅ _ hS
      (Finset.not_mem_empty _) hrun'
  set A : List Piece := b.filter (fun p =>
      decide (p.pos ∈ vpc) && decide (p.player = S.player)) with hAdef
  set dE : Bool := (pieceAt b D).isNone with hdE
  set F : List Piece :=
      if dE then A.filter (fun p => decide (p.pos ≠ S.pos)) else A with hFdef
  have hmatch : findMovementPathForBoard (b.length + 1) (b.length + 2) S D b =
      bfsLoop S A F (b.length + 2) [(D, [D])] {D} := by
    rw [hFdef, hAdef, hdE]
    unfold findMovementPathForBoard
    rw [hrun]
  have hAmem : ∀ p, p ∈ A ↔ p ∈ b ∧ p.pos ∈ vpc ∧ p.player = S.player := by
    intro p
    rw [hAdef, List.mem_filter]
    simp
  have hA : ∀ p ∈ A, pieceAt b p.pos = some p := by
    intro p hp
    exact pieceAt_of_mem hWF.2.1 ((hAmem p).mp hp).1
  have hSA : S ∈ A := (hAmem S).mpr ⟨(pieceAt_some hS).1, R.self_mem, rfl⟩
  have hlinkA : ∀ t, Linked b S t → t ∈ A := by
    intro t ht
    exact (hAmem t).mpr ⟨(pieceAt_some (chain_pieceAt ht)).1,
      linked_pos_mem_visited hS R t ht, chain_player ht⟩
  have hFA : ∀ p ∈ F, p ∈ A := by
    intro p hp
    rw [hFdef] at hp
    by_cases hde : dE = true
    · rw [if_pos hde] at hp
      exact (List.mem_filter.mp hp).1
    · rw [if_neg hde] at hp
      exact hp
  have hFeq : dE = false → F = A := by
    intro hde
    rw [hFdef, hde]
    simp
  have hFS : dE = true → ∀ p ∈ F, p.pos ≠ S.pos := by
    intro hde p hp
    rw [hFdef, if_pos hde] at hp
    have := (List.mem_filter.mp hp).2
    simpa using this
  have hDnone : dE = true → pieceAt b D = none := by
    intro hde
    rw [hdE] at hde
    exact Option.isNone_iff_eq_none.mp hde
  have hchainEx : ∃ p₀ ∈ F, D ∈ getAvailableSquares p₀ ∧
      Relation.ReflTransGen (pathEdge A dE D) p₀.pos S.pos := by
    rcases (resolveO_acc_iff hS R D).mp hD with ⟨q, hq, hocc⟩ | ⟨t, hlink, hval⟩
    · have hde : dE = false := by
        rcases mem_occCandidates.mp hocc with ⟨_, _, hsome⟩
        rw [hdE]
        cases hpb : pieceAt b D with
        | none => rw [hpb] at hsome; exact absurd hsome (by simp)
        | some _ => rfl
      rcases hq with rfl | hq
      · refine ⟨q, ?_, (mem_occCandidates.mp hocc).1, Relation.ReflTransGen.refl⟩
        rw [hFeq hde]
        exact hSA
      · refine ⟨q, ?_, (mem_occCandidates.mp hocc).1,
          linked_rtg hSA hlinkA hDnone q hq⟩
        rw [hFeq hde]
        exact hlinkA q hq
    · refine ⟨t, ?_, (mem_validCandidates.mp hval).1,
        linked_rtg hSA hlinkA hDnone t hlink⟩
      rw [hFdef]
      by_cases hde : dE = true
      · rw [if_pos hde, List.mem_filter]
        exact ⟨hlinkA t hlink, by simpa using chain_ne_origin hlink⟩
      · rw [if_neg hde]
        exact hlinkA t hlink
  have hne_none : bfsLoop S A F (b.length + 2) [(D, [D])] {D} ≠ none := by
    refine bfsLoop_ne_none S A F (boardPositions b) ?_ ?_ _ _ _ ?_
    · intro p hp
      exact mem_boardPositions.mpr ⟨p, ((hAmem p).mp hp).1, rfl⟩
    · intro p hp
      exact mem_boardPositions.mpr ⟨p, ((hAmem p).mp (hFA p hp)).1, rfl⟩
    · have hcard : (boardPositions b).card ≤ b.length := by
        refine le_trans (List.toFinset_card_le _) ?_
        simp
      have hsd : (boardPositions b \ {D}).card ≤ (boardPositions b).card :=
        Finset.card_le_card Finset.sdiff_subset
      simp only [List.length_cons, List.length_nil]
      omega
  have hne_null : bfsLoop S A F (b.length + 2) [(D, [D])] {D} ≠ some none := by
    obtain ⟨p₀, hp₀F, hp₀D, hrtg⟩ := hchainEx
    refine bfsLoop_no_null S D dE A F hFA hFeq p₀ hp₀F hp₀D hrtg _ _ _ ?_ ?_ ?_ ?_
    · exact Finset.mem_singleton_self D
    · intro hSmem
      exact ⟨(D, [D]), List.mem_cons_self _ _, (Finset.mem_singleton.mp hSmem).symm⟩
    · intro e he
      have he' : e = (D, [D]) := by simpa using he
      subst he'
      exact ⟨by simp, fun _ => rfl⟩
    · intro x hx
      exact Or.inl ⟨(D, [D]), List.mem_cons_self _ _, (Finset.mem_singleton.mp hx).symm⟩
  obtain ⟨out, hout⟩ : ∃ out, bfsLoop S A F (b.length + 2) [(D, [D])] {D} =
      some (some out) := by
    cases hres : bfsLoop S A F (b.length + 2) [(D, [D])] {D} with
    | none => exact absurd hres hne_none
    | some r =>
      cases r with
      | none => exact absurd hres hne_null
      | some out => exact ⟨out, rfl⟩
  have hinv0 : ∀ e ∈ [(D, [D])], PathEntryInv b S D dE e := by
    intro e he
    have he' : e = (D, [D]) := by simpa using he
    subst he'
    refine ⟨by simp, rfl, by simp, List.chain'_singleton _, ?_, fun _ => rfl⟩
    intro _ y hy
    simp at hy
  obtain ⟨stored, hsto, hne, hhd, hlast, hchain, hsec⟩ :=
    bfsLoop_sound b S D dE A F hA hFS hFA (b.length + 2) _ _ out hinv0 hout
  refine ⟨out, by rw [hmatch]; exact hout, ?_, ?_, ?_, ?_, ?_⟩
  · rw [hsto]
    simpa using hne
  · rw [hsto, List.head?_reverse]
    exact hlast
  · rw [hsto, List.getLast?_reverse]
    exact hhd
  · rw [hsto, List.reverse_reverse]
    exact hchain
  · intro hde y hy
    rw [hsto, List.reverse_reverse] at hy
    exact hsec hde y hy

theorem c1_pathfinder_correct_witness :
    ∃ acc vp vpc : Finset Pos,
      getAllAccessibleSquaresForBoard 3 pieceA pieceA boardAB = some (acc, vp, vpc) ∧
      (⟨2, 2⟩ : Pos) ∈ acc ∧
      ∃ path : List Pos,
        findMovementPathForBoard 3 4 pieceA (⟨2, 2⟩ : Pos) boardAB =
          some (some path) ∧ PathOk boardAB pieceA (⟨2, 2⟩ : Pos) path :=
  ⟨_, _, _, rfl, by decide,
    c1_pathfinder_correct boardAB pieceA ⟨2, 2⟩ _ _ _ (by decide) (by decide) rfl
      (by decide)⟩

end Gyroad
